import Mathlib

/-!
# gaechannel: the production channel's protocol engine

A shallow embedding of `src/prod.go`, with `commonChannel` and `newCommon` of `src/channel.go`.

* Go byte strings and strings are sequences of code points (`Bytes = List Char`), that is
  valid UTF-8; every delimiter the code looks for (`,`, the two quote characters, `[`, `)`, the
  line feed) is ASCII, and a length that the code counts in bytes (the packet length read by the
  decoder) is counted here through `utf8Len`.
* `int`, `int64` and `time.Duration` are 64-bit: they are `Int` here, with the wrap-around
  written out where the code does arithmetic (`wrapInt64`).
* A value produced by `json.Unmarshal` into `interface{}` is a `JSON`; a `float64` is the
  rational number it denotes.
* The Go standard library is not part of the repository: `json.Unmarshal` and `strconv.Unquote`
  are parameters (`unmarshal`, `unquote`) of the functions that call them. `jsonUnmarshal` and
  `unquotePlain` are reference instances used at concrete inputs.
* The network is an input: an HTTP exchange is given by its outcome, `randLetters` by the string
  it returned, the `stop` channel by whether it is closed when the `select` runs. A send on the
  `data` channel appends to `sent`; a call of `time.Sleep` appends to `slept`.
* A run-time panic (failed type assertion, slice bound out of range) is an outcome of its own.
-/

namespace Gaechannel

set_option maxRecDepth 8000

/-! ## Bytes and the `bytes` / `strings` helpers used by the code -/

/-- A Go byte string. -/
abbrev Bytes := List Char

/-- The double quote character. -/
def dquote : Char := Char.ofNat 34

/-- The single quote character. -/
def squote : Char := Char.ofNat 39

/-- The line feed character. -/
def newline : Char := Char.ofNat 10

/-- Go `bytes.Index(s, sep)`: index of the first occurrence of `sep` in `s`, or `-1`. -/
def bytesIndex (sep : Bytes) : Bytes → Int
  | [] => if sep.isEmpty then 0 else -1
  | c :: cs =>
    if sep.isPrefixOf (c :: cs) then 0
    else
      let i := bytesIndex sep cs
      if i < 0 then -1 else i + 1

/-- Go `bytes.IndexByte(s, b)`: index of the first `b` in `s`, or `-1`. -/
def bytesIndexByte (b : Char) : Bytes → Int
  | [] => -1
  | c :: cs =>
    if c = b then 0
    else
      let i := bytesIndexByte b cs
      if i < 0 then -1 else i + 1

/-- Worker of `bytesReplace`: `skip` is the number of bytes of a match still to be dropped. -/
def bytesReplaceFrom (old new : Bytes) : Nat → Bytes → Bytes
  | _, [] => []
  | skip + 1, _ :: cs => bytesReplaceFrom old new skip cs
  | 0, c :: cs =>
    if old.isPrefixOf (c :: cs) then new ++ bytesReplaceFrom old new (old.length - 1) cs
    else c :: bytesReplaceFrom old new 0 cs

/-- Go `bytes.Replace(s, old, new, -1)` for a non-empty `old` (both call sites pass a literal):
the non-overlapping occurrences of `old`, found left to right, are replaced by `new`. -/
def bytesReplace (s old new : Bytes) : Bytes := bytesReplaceFrom old new 0 s

/-- Go slice expression `raw[i:]`; `none` is the run-time panic "slice bounds out of range". -/
def sliceFrom (raw : Bytes) (i : Int) : Option Bytes :=
  if 0 ≤ i ∧ i ≤ raw.length then some (raw.drop i.toNat) else none

/-- Go `unicode.IsSpace`. -/
def isSpace (c : Char) : Bool :=
  let n := c.toNat
  (9 ≤ n && n ≤ 13) || n == 32 || n == 0x85 || n == 0xA0 || n == 0x1680 ||
    (0x2000 ≤ n && n ≤ 0x200a) || n == 0x2028 || n == 0x2029 || n == 0x202f ||
    n == 0x205f || n == 0x3000

/-- Removes the trailing characters satisfying `p`. -/
def trimRightWhile (p : Char → Bool) (s : Bytes) : Bytes :=
  (s.reverse.dropWhile p).reverse

/-- Go `strings.TrimSpace`. -/
def trimSpace (s : Bytes) : Bytes := trimRightWhile isSpace (s.dropWhile isSpace)

/-- Go `strings.TrimRight(s, ",")`. -/
def trimRightCommas (s : Bytes) : Bytes := trimRightWhile (fun c => c == ',') s

/-- Go `strings.Split(s, "\n")`. -/
def splitLines : Bytes → List Bytes
  | [] => [[]]
  | c :: cs =>
    if c = newline then [] :: splitLines cs
    else
      match splitLines cs with
      | l :: ls => (c :: l) :: ls
      | [] => [[c]]

/-- Wrap-around of 64-bit signed arithmetic. -/
def wrapInt64 (x : Int) : Int := (x + 2 ^ 63) % 2 ^ 64 - 2 ^ 63

/-- Largest value of Go `int` / `int64`. -/
def maxInt64 : Int := 2 ^ 63 - 1

/-- Go `strconv.Itoa` and `fmt.Sprintf("%d", n)`. -/
def itoa (n : Int) : String := toString n

/-- Go `strconv.Atoi`: an optional sign followed by at least one decimal digit, in the range of
`int`; `none` is the error result. -/
def atoi (s : Bytes) : Option Int :=
  let parts : Bool × Bytes :=
    match s with
    | '+' :: r => (false, r)
    | '-' :: r => (true, r)
    | r => (false, r)
  let digits := parts.2
  if digits.isEmpty || !digits.all Char.isDigit then none
  else
    let n : Nat := digits.foldl (fun a c => 10 * a + (c.toNat - 48)) 0
    let v : Int := if parts.1 then -(n : Int) else (n : Int)
    if -(2 : Int) ^ 63 ≤ v ∧ v ≤ maxInt64 then some v else none

/-- Go `bufio.Reader.ReadString` with the line feed as delimiter on a stream that holds `s` and
then ends: the line with its delimiter and the rest, or `none` for `io.EOF` (also when bytes
without a delimiter remain). -/
def readLine : Bytes → Option (Bytes × Bytes)
  | [] => none
  | c :: cs =>
    if c = newline then some ([c], cs)
    else
      match readLine cs with
      | none => none
      | some (l, r) => some (c :: l, r)

/-- Number of bytes of the UTF-8 encoding of a code point. -/
def utf8Len (c : Char) : Nat :=
  if c.toNat < 0x80 then 1
  else if c.toNat < 0x800 then 2
  else if c.toNat < 0x10000 then 3
  else 4

/-- The code point U+FFFD, which Go's decoders read in place of bytes that are not UTF-8. -/
def replacementChar : Char := Char.ofNat 0xFFFD

/-- The first `n` bytes of `s` and what follows them, `none` when `s` has fewer than `n` bytes.
When the `n` bytes end inside the encoding of a character, neither piece is UTF-8 in Go: here
the broken character stands as U+FFFD at the end of the first piece and at the start of the
second. -/
def takeBytes : Bytes → Nat → Option (Bytes × Bytes)
  | [], 0 => some ([], [])
  | c :: cs, 0 => some ([], c :: cs)
  | [], _ + 1 => none
  | c :: cs, n + 1 =>
    if utf8Len c ≤ n + 1 then
      (takeBytes cs (n + 1 - utf8Len c)).map (fun p => (c :: p.1, p.2))
    else some ([replacementChar], replacementChar :: cs)

/-- Go `io.CopyN(buf, r, n)` into an empty buffer from a stream that holds `s` and then ends:
the `n` bytes copied and the rest, or `none` for the error returned when fewer than `n` bytes
remain. For `n ≤ 0` nothing is copied and no error is returned. -/
def copyN (s : Bytes) (n : Int) : Option (Bytes × Bytes) :=
  if n ≤ 0 then some ([], s)
  else takeBytes s n.toNat

/-! ## Values decoded by `encoding/json` -/

/-- What `json.Unmarshal` stores in an `interface{}`. -/
inductive JSON where
  | null
  | bool (b : Bool)
  | num (x : ℚ)
  | str (s : String)
  | arr (xs : List JSON)
  | obj (kvs : List (String × JSON))

/-- Type assertion `v.([]interface{})`. -/
def asArray : JSON → Option (List JSON)
  | .arr xs => some xs
  | _ => none

/-- Type assertion `v.(float64)`. -/
def asFloat : JSON → Option ℚ
  | .num x => some x
  | _ => none

/-- Type assertion `v.(string)`. -/
def asString : JSON → Option String
  | .str s => some s
  | _ => none

/-- Go conversion `int64(f)` of a `float64`: the fraction is discarded; a value outside the
range of `int64` gives the smallest `int64` (the result on amd64). -/
def int64OfFloat (x : ℚ) : Int :=
  let t := Int.tdiv x.num x.den
  if -(2 : Int) ^ 63 ≤ t ∧ t ≤ maxInt64 then t else -(2 : Int) ^ 63

/-! ## Session state -/

/-- Go `commonChannel` (channel.go). -/
structure commonChannel where
  Host : String
  ChannelPath : String
  ClientID : String
  Token : String

/-- Go `prodChannel`; the channels `stop` and `done` are inputs of `poll`. -/
structure prodChannel extends commonChannel where
  talkHost : String
  talkPath : String
  gClientID : String
  gSessionID : String
  sid : String
  rid : Int
  mid : Int
  backoff : Int
  backMax : Int

/-- Go `time.Millisecond`, in nanoseconds. -/
def millisecond : Int := 1000000

/-- Go `time.Minute`, in nanoseconds. -/
def minute : Int := 60000000000

/-- Go `newCommon`. -/
def newCommon (base clientID token : String) : commonChannel :=
  { Host := base, ChannelPath := "/_ah/channel/", ClientID := clientID, Token := token }

/-- Go `newProdChannel`; the fields it does not name are zero values. -/
def newProdChannel (common : commonChannel) : prodChannel :=
  { tocommonChannel := common
    talkHost := "talkgadget.google.com"
    talkPath := "/talkgadget/"
    gClientID := ""
    gSessionID := ""
    sid := ""
    rid := 0
    mid := 1
    backoff := 100 * millisecond
    backMax := 1 * minute }

/-! ## The bind request builder -/

/-- Go `url.Values`: keys with their value lists. `url.Values.Encode` writes the keys in sorted
order, so the order of this list carries no meaning. -/
abbrev Values := List (String × List String)

/-- Map read `v[key]`, with presence. -/
def Values.find (v : Values) (key : String) : Option (List String) :=
  (List.find? (fun kv => kv.1 == key) v).map Prod.snd

/-- Map write `v[key] = vals`. -/
def Values.set (v : Values) (key : String) (vals : List String) : Values :=
  (key, vals) :: List.filter (fun kv => !(kv.1 == key)) v

/-- Go `url.Values.Add`. -/
def Values.add (v : Values) (key value : String) : Values :=
  Values.set v key ((Values.find v key).getD [] ++ [value])

/-- The loop `for key, vals := range extra { v[key] = vals }`. -/
def Values.merge (v extra : Values) : Values :=
  extra.foldl (fun acc kv => Values.set acc kv.1 kv.2) v

/-- Go `url.URL` as `bindURL` fills it in: `Path` holds the arguments of `path.Join`, `RawQuery`
the values handed to `Encode`. -/
structure URL where
  Scheme : String
  Host : String
  Path : List String
  RawQuery : Values

/-- Go `prodChannel.bindURL`; `zx` is the result of `randLetters(12)`. Returns the URL and the
session after the call. -/
def bindURL (c : prodChannel) (extra : Values) (zx : String) : URL × prodChannel :=
  let v : Values :=
    [("VER", ["8"]), ("RID", [itoa c.rid]), ("token", [c.Token]),
     ("gsessionid", [c.gSessionID]), ("clid", [c.gClientID]), ("prop", ["data"]),
     ("zx", [zx]), ("t", ["1"])]
  let v := Values.merge v extra
  let v := if c.sid ≠ "" then Values.add v "SID" c.sid else v
  let c' := { c with rid := wrapInt64 (c.rid + 1) }
  ({ Scheme := "https", Host := c.talkHost, Path := [c.talkPath, "dch/bind"], RawQuery := v }, c')

/-- A sequence of `bindURL` calls, one per entry of `calls` (its extra parameters and its random
token): the `rid` values the calls read, the URLs, and the session at the end. -/
def bindURLs : prodChannel → List (Values × String) → List Int × List URL × prodChannel
  | c, [] => ([], [], c)
  | c, call :: rest =>
    let r := bindURL c call.1 call.2
    let t := bindURLs r.2 rest
    (c.rid :: t.1, r.1 :: t.2.1, t.2.2)

/-! ## The session bootstrapper -/

/-- The literal part of the pattern `callExtract`. -/
def callName : Bytes := "chat.WcsDataClient(".toList

/-- The rest of the pattern, `([^\)]+)\)`, matched at the start of `s`: the non-empty run of
characters other than a closing parenthesis, which a closing parenthesis must follow. -/
def matchArgs (s : Bytes) : Option Bytes :=
  let run := s.takeWhile (fun c => !(c == ')'))
  if run.isEmpty then none
  else
    match s.dropWhile (fun c => !(c == ')')) with
    | ')' :: _ => some run
    | _ => none

/-- The expression `callExtract.FindStringSubmatch(data)`: `groups[1]` of the leftmost match,
`none` when there is no match. -/
def callExtract : Bytes → Option Bytes
  | [] => none
  | c :: cs =>
    if callName.isPrefixOf (c :: cs) then
      match matchArgs ((c :: cs).drop callName.length) with
      | some g => some g
      | none => callExtract cs
    else callExtract cs

/-- The errors `initialize` returns once it has the response body. -/
inductive InitError where
  | setupNotFound
  | unquoteLine (i : Nat)
  | paramCount (got : Nat)
  | tokenMismatch (got want : String)
deriving DecidableEq

/-- The loop of `initialize` over the lines of the argument list, from line `i` on, with the
parameters gathered so far. -/
def gatherParams (unquote : Bytes → Option String) :
    List Bytes → Nat → List String → Except InitError (List String)
  | [], _, params => .ok params
  | line :: rest, i, params =>
    let line := trimRightCommas (trimSpace line)
    if line.length = 0 then gatherParams unquote rest (i + 1) params
    else
      match unquote line with
      | none => .error (.unquoteLine i)
      | some param => gatherParams unquote rest (i + 1) (params ++ [param])

/-- Go `prodChannel.initialize` from the point where the response body `data` has been read
(prod.go lines 86 to 115): the error returned, if any, and the session after the call. -/
def initializeFrom (unquote : Bytes → Option String) (c : prodChannel) (data : Bytes) :
    Option InitError × prodChannel :=
  match callExtract data with
  | none => (some .setupNotFound, c)
  | some group =>
    match gatherParams unquote (splitLines group) 0 [] with
    | .error e => (some e, c)
    | .ok params =>
      if params.length ≠ 7 then (some (.paramCount params.length), c)
      else
        let c := { c with gClientID := params.getD 2 "", gSessionID := params.getD 3 "" }
        if params.getD 6 "" ≠ c.Token then
          (some (.tokenMismatch (params.getD 6 "") c.Token), c)
        else (none, c)

/-- The argument lines as the loop of `initialize` sees them: trimmed, without trailing commas,
the empty ones left out. -/
def argLines (group : Bytes) : List Bytes :=
  ((splitLines group).map (fun l => trimRightCommas (trimSpace l))).filter
    (fun l => !l.isEmpty)

/-! ## The two quasi-JSON repairs -/

/-- The byte string `,,`. -/
def doubleComma : Bytes := [',', ',']

/-- The byte string that replaces it: a comma, an empty string literal, a comma. -/
def emptyField : Bytes := [',', dquote, dquote, ',']

/-- The loop `for bytes.Index(raw, ",,") >= 0 { raw = bytes.Replace(raw, ",,", ...) }` of the
packet decoder; `none` when `fuel` loop tests do not reach the exit. -/
def repairCommas : Nat → Bytes → Option Bytes
  | 0, _ => none
  | fuel + 1, raw =>
    if bytesIndex doubleComma raw ≥ 0 then
      repairCommas fuel (bytesReplace raw doubleComma emptyField)
    else some raw

/-- The two steps after the comma repair, the same in both functions: every single quote becomes
a double quote, then `raw = raw[bytes.IndexByte(raw, '['):]`; `none` is the panic of the slice
expression. -/
def requoteAndSlice (raw : Bytes) : Option Bytes :=
  let raw := bytesReplace raw [squote] [dquote]
  sliceFrom raw (bytesIndexByte '[' raw)

/-- The repair of `fetchSID` (prod.go lines 162 to 164): one `bytes.Replace` of the double
commas. -/
def fetchRepair (raw : Bytes) : Option Bytes :=
  requoteAndSlice (bytesReplace raw doubleComma emptyField)

/-- The repair of the packet decoder (prod.go lines 245 to 250): outer `none` when the comma loop
runs out of fuel, inner `none` for the panic of the slice expression. -/
def pollRepair (raw : Bytes) : Option (Option Bytes) :=
  (repairCommas (raw.length + 1) raw).map requoteAndSlice

/-- Whether two commas stand next to each other. -/
def adjacentCommas : Bytes → Bool
  | a :: b :: r => (a == ',' && b == ',') || adjacentCommas (b :: r)
  | _ => false

/-- A run of `n` commas (`n ≥ 1`) with an empty string literal between each adjacent two. -/
def commaRun (n : Nat) : Bytes :=
  ',' :: (List.replicate (n - 1) [dquote, dquote, ',']).flatten

/-- The repair as the specification words it: an empty string literal is put between every two
adjacent commas. `prevComma` says whether the byte before the input was a comma. -/
def fillCommaRuns (prevComma : Bool) : Bytes → Bytes
  | [] => []
  | c :: cs =>
    if prevComma && c == ',' then dquote :: dquote :: ',' :: fillCommaRuns true cs
    else c :: fillCommaRuns (c == ',') cs

/-! ## fetchSID -/

/-- The errors `fetchSID` returns once it has the response body. -/
inductive FetchError where
  | decode (raw : Bytes)
  | extract
deriving DecidableEq

/-- How a function of the session ends: it returns, with an error or without, or it panics. -/
inductive Outcome (ε σ : Type) where
  | returned (err : Option ε) (s : σ)
  | panicked (s : σ)
  | outOfFuel

/-- The state an outcome carries. -/
def Outcome.state? {ε σ : Type} : Outcome ε σ → Option σ
  | .returned _ s => some s
  | .panicked s => some s
  | .outOfFuel => none

/-- Whether the outcome is a panic. -/
def Outcome.panics {ε σ : Type} : Outcome ε σ → Bool
  | .panicked _ => true
  | _ => false

/-- Whether the outcome is a return without error. -/
def Outcome.succeeded {ε σ : Type} : Outcome ε σ → Bool
  | .returned none _ => true
  | _ => false

/-- The error of an outcome that returned one. -/
def Outcome.error? {ε σ : Type} : Outcome ε σ → Option ε
  | .returned err _ => err
  | _ => none

/-- The function literal of `fetchSID` that digs the session ID out of `msg`, with its deferred
`recover`: a failed index or type assertion becomes the error, as does a key other than "c". -/
def extractSID (msg : List JSON) : Except FetchError String :=
  match msg[0]? with
  | none => .error .extract
  | some m0 =>
    match asArray m0 with
    | none => .error .extract
    | some first =>
      match first[1]? with
      | none => .error .extract
      | some f1 =>
        match asArray f1 with
        | none => .error .extract
        | some list =>
          match list[0]? with
          | none => .error .extract
          | some l0 =>
            match asString l0 with
            | none => .error .extract
            | some key =>
              match list[1]? with
              | none => .error .extract
              | some l1 =>
                match asString l1 with
                | none => .error .extract
                | some val => if key ≠ "c" then .error .extract else .ok val

/-- Go `prodChannel.fetchSID` from the point where the response body `raw` has been read
(prod.go lines 162 to 190). -/
def fetchSIDDecode (unmarshal : Bytes → Option (List JSON)) (c : prodChannel) (raw : Bytes) :
    Outcome FetchError prodChannel :=
  match fetchRepair raw with
  | none => .panicked c
  | some raw =>
    match unmarshal raw with
    | none => .returned (some (.decode raw)) c
    | some msg =>
      match extractSID msg with
      | .error e => .returned (some e) c
      | .ok val => .returned none { c with sid := val }

/-- The shape `fetchSID` accepts, as a predicate on the parsed body: the first element is an
array whose element 1 is an array whose elements 0 and 1 are strings, the key and the value. -/
def sidShape : List JSON → Option (String × String)
  | .arr (_ :: .arr (.str key :: .str val :: _) :: _) :: _ => some (key, val)
  | _ => none

/-- The shape the specification writes, `[[_, [key, value]]]`, read to the letter. -/
def sidShapeExact : List JSON → Option (String × String)
  | [.arr [_, .arr [.str key, .str val]]] => some (key, val)
  | _ => none

/-! ## The packet decoder and the long-poll loop -/

/-- What `poll` holds while it runs: the session, its local variable `backoff`, the messages
sent on `data`, the durations passed to `time.Sleep` and the URLs requested, each in order. -/
structure PollState where
  c : prodChannel
  backoff : Int
  sent : List String
  slept : List Int
  requests : List URL

/-- The errors `decode` returns. -/
inductive DecodeError where
  | size (line : Bytes)
  | reading
  | unmarshal (raw : Bytes)
deriving DecidableEq

/-- One iteration of `for _, ipair := range packet` (prod.go lines 258 to 299); `inr` is the
panic of the type assertion `payload[1].(string)`. The indexings are guarded by the length
tests before them. -/
def pairStep (s : PollState) (ipair : JSON) : PollState ⊕ PollState :=
  match asArray ipair with
  | none => .inl s
  | some pair =>
    if pair.length ≠ 2 then .inl s
    else
      -- msgID, ok := pair[0].(float64): when the assertion fails msgID is 0 and a line is logged
      let msgID := (asFloat (pair.getD 0 .null)).getD 0
      let s := { s with c := { s.c with mid := int64OfFloat msgID } }
      -- msg, ok := pair[1].([]interface{}): when the assertion fails msg is nil
      let msg := (asArray (pair.getD 1 .null)).getD []
      if msg.length < 2 then .inl s
      else
        match asString (msg.getD 0 .null) with
        | none => .inl s
        | some kind =>
          if kind ≠ "c" then .inl s
          else
            match asArray (msg.getD 1 .null) with
            | none => .inl s
            | some cmsg =>
              if cmsg.length < 2 then .inl s
              else
                match asArray (cmsg.getD 1 .null) with
                | none => .inl s
                | some payload =>
                  if payload.length < 2 then .inl s
                  else
                    match asString (payload.getD 0 .null) with
                    | none => .inl s
                    | some kind2 =>
                      if kind2 ≠ "ae" then .inl s
                      else
                        match asString (payload.getD 1 .null) with
                        | none => .inr s
                        | some text =>
                          .inl { s with sent := s.sent ++ [text], backoff := s.c.backoff }

/-- The state a run of the pair loop ends in, panic or not. -/
def finalState (r : PollState ⊕ PollState) : PollState := Sum.elim id id r

/-- The loop `for _, ipair := range packet`: `inl` when it runs to the end, `inr` when an
iteration panics. -/
def packetLoop : PollState → List JSON → PollState ⊕ PollState
  | s, [] => .inl s
  | s, ipair :: rest =>
    match pairStep s ipair with
    | .inl s' => packetLoop s' rest
    | .inr s' => .inr s'

/-- The loop of `decode` (prod.go lines 221 to 300) on what is left of the body. -/
def decodeLoop (unmarshal : Bytes → Option (List JSON)) :
    Nat → PollState → Bytes → Outcome DecodeError PollState
  | 0, _, _ => .outOfFuel
  | fuel + 1, s, body =>
    match readLine body with
    | none => .returned none s
    | some (line, rest) =>
      let line := trimSpace line
      match atoi line with
      | none => .returned (some (.size line)) s
      | some size =>
        match copyN rest size with
        | none => .returned (some .reading) s
        | some (raw, rest) =>
          match pollRepair raw with
          | none => .outOfFuel
          | some none => .panicked s
          | some (some raw) =>
            match unmarshal raw with
            | none => .returned (some (.unmarshal raw)) s
            | some packet =>
              match packetLoop s packet with
              | .inr s' => .panicked s'
              | .inl s' => decodeLoop unmarshal fuel s' rest

/-- The function literal `decode` of `poll` on a response body that arrives whole. Every
iteration reads at least one byte, so `body.length + 1` iterations reach the end. -/
def decode (unmarshal : Bytes → Option (List JSON)) (s : PollState) (body : Bytes) :
    Outcome DecodeError PollState :=
  decodeLoop unmarshal (body.length + 1) s body

/-- Outcome of `http.Get`. -/
inductive HttpResult where
  | failed (err : String)
  | response (status : Int) (body : Bytes)

/-- What one iteration of the loop of `poll` meets: whether `stop` is closed at the `select`,
the result of `randLetters(12)`, and the outcome of `http.Get`. -/
structure Round where
  stopped : Bool
  zx : String
  result : HttpResult

/-- The errors `poll` returns; `ErrReauth` is the package's sentinel. -/
inductive PollError where
  | transport (err : String)
  | ErrReauth
deriving DecidableEq

/-- How `poll` ends on a finite script of rounds: `further` when the script is used up and the
loop is about to start another iteration. -/
inductive PollResult where
  | returned (err : Option PollError) (s : PollState)
  | panicked (s : PollState)
  | outOfFuel
  | further (s : PollState)

/-- The state a result carries. -/
def PollResult.state? : PollResult → Option PollState
  | .returned _ s => some s
  | .panicked s => some s
  | .outOfFuel => none
  | .further s => some s

/-- The extra parameters of the poll request. -/
def pollExtra (c : prodChannel) : Values :=
  [("CI", ["0"]), ("AID", [itoa c.mid]), ("TYPE", ["xmlhttp"]), ("RID", ["rpc"])]

/-- The statement `if backoff *= 2; backoff > c.backMax { backoff = c.backMax }`. -/
def nextBackoff (backoff backMax : Int) : Int :=
  let b := wrapInt64 (backoff * 2)
  if b > backMax then backMax else b

/-- The start of an iteration that goes on past the `select`: `time.Sleep(backoff)`, the
doubling of `backoff`, and the `bindURL` call whose URL is requested. -/
def roundStart (s : PollState) (r : Round) : PollState :=
  let s := { s with slept := s.slept ++ [s.backoff] }
  let s := { s with backoff := nextBackoff s.backoff s.c.backMax }
  let bind := bindURL s.c (pollExtra s.c) r.zx
  { s with c := bind.2, requests := s.requests ++ [bind.1] }

/-- The loop of `poll` (prod.go lines 304 to 344) on a script of rounds. -/
def pollLoop (unmarshal : Bytes → Option (List JSON)) : List Round → PollState → PollResult
  | [], s => .further s
  | r :: rs, s =>
    if r.stopped then .returned none s
    else
      let s := roundStart s r
      match r.result with
      | .failed err => .returned (some (.transport err)) s
      | .response status body =>
        if Int.tdiv status 100 ≠ 2 then
          if status = 400 ∨ status = 401 then .returned (some .ErrReauth) s
          else pollLoop unmarshal rs s
        else
          match decode unmarshal s body with
          | .returned (some _) s' => pollLoop unmarshal rs s'
          | .returned none s' => pollLoop unmarshal rs { s' with backoff := s'.c.backoff }
          | .panicked s' => .panicked s'
          | .outOfFuel => .outOfFuel

/-- Go `prodChannel.poll` on a script of rounds: `backoff := c.backoff`, then the loop. -/
def poll (unmarshal : Bytes → Option (List JSON)) (c : prodChannel) (rounds : List Round) :
    PollResult :=
  pollLoop unmarshal rounds { c := c, backoff := c.backoff, sent := [], slept := [], requests := [] }

/-- What the decoder may do to the state of `poll`: it sends zero or more messages and, when it
sends one, resets the local `backoff` to the base delay; of the session it touches only `mid`. -/
def Delivered (s s' : PollState) : Prop :=
  s'.c.backoff = s.c.backoff ∧ s'.c.backMax = s.c.backMax ∧ s'.c.rid = s.c.rid ∧
  s'.slept = s.slept ∧ s'.requests = s.requests ∧
  ∃ more, s'.sent = s.sent ++ more ∧
    s'.backoff = if more = [] then s.backoff else s.c.backoff

/-- The value an array `["ae", v, ...]` carries. -/
def aeValue : JSON → Option JSON
  | .arr (.str tag :: v :: _) => if tag = "ae" then some v else none
  | _ => none

/-- The value under an array of two or more elements whose second element is an `"ae"` array. -/
def cmsgValue : JSON → Option JSON
  | .arr (_ :: payload :: _) => aeValue payload
  | _ => none

/-- The value under a message body `["c", cmsg, ...]`. -/
def bodyValue : JSON → Option JSON
  | .arr (.str kind :: cmsg :: _) => if kind = "c" then cmsgValue cmsg else none
  | _ => none

/-- The value the `"ae"` array carries when `ipair` has the chain of tags the decoder looks for:
a pair whose body is an array of two or more elements, the first `"c"`, the second an array of
two or more elements whose second is an array of two or more elements, the first `"ae"`. -/
def chainValue : JSON → Option JSON
  | .arr [_, body] => bodyValue body
  | _ => none

/-- The payload string of a pair that has the chain of tags. -/
def chainPayload (ipair : JSON) : Option String :=
  match chainValue ipair with
  | some (.str text) => some text
  | _ => none

/-- The chain of tags as the specification writes it, read to the letter: the innermost array
is `["ae", payload]`, two elements. -/
def chainPayloadExact : JSON → Option String
  | .arr [_, .arr (.str kind :: .arr (_ :: .arr [.str kind2, .str text] :: _) :: _)] =>
    if kind = "c" ∧ kind2 = "ae" then some text else none
  | _ => none

/-- The message ID a pair assigns to `mid`: `int64` of its first element, 0 when that is not a
number; `none` for a value that is not a two-element array. -/
def pairMid : JSON → Option Int
  | .arr [.num x, _] => some (int64OfFloat x)
  | .arr [_, _] => some 0
  | _ => none

/-- The state after a pair, as the specification words it: `mid` is the pair's message ID, a
payload found under the chain of tags is sent and resets `backoff`. -/
def afterPair (s : PollState) (ipair : JSON) : PollState :=
  { s with
    c := { s.c with mid := (pairMid ipair).getD s.c.mid }
    sent := s.sent ++ (chainPayload ipair).toList
    backoff := if (chainPayload ipair).isSome then s.c.backoff else s.backoff }

/-- The value of `mid` after the pairs of `packet`, as the specification words it: the message
ID of the last pair, `mid` when there is none. -/
def lastMid (mid : Int) (packet : List JSON) : Int :=
  ((packet.filterMap pairMid).getLast?).getD mid

/-! ## Reference instances of the two library functions

They cover the part of each grammar that the concrete inputs of this file use and return `none`
elsewhere; the theorems that quantify over `unmarshal` or `unquote` do not depend on them. -/

/-- The backslash character. -/
def backslash : Char := Char.ofNat 92

/-- JSON white space. -/
def skipWs (s : Bytes) : Bytes :=
  s.dropWhile (fun c => c == ' ' || c.toNat == 9 || c.toNat == 10 || c.toNat == 13)

/-- The characters of a string literal after its opening quote, up to the closing quote, and
what follows. Literals with an escape or a control character are outside the part covered. -/
def parseStringBody : Bytes → Option (List Char × Bytes)
  | [] => none
  | c :: cs =>
    if c = dquote then some ([], cs)
    else if c = backslash || c.toNat < 32 then none
    else (parseStringBody cs).map (fun p => (c :: p.1, p.2))

/-- An integer literal: an optional minus sign, then `0` or digits that do not start with `0`.
Fractions, exponents and integers beyond 2^53 (which `float64` rounds) are outside the part
covered. -/
def parseInteger (s : Bytes) : Option (ℚ × Bytes) :=
  let parts : Bool × Bytes :=
    match s with
    | '-' :: r => (true, r)
    | r => (false, r)
  let digits := parts.2.takeWhile Char.isDigit
  let rest := parts.2.dropWhile Char.isDigit
  let leadingZero : Bool :=
    match digits with
    | '0' :: _ :: _ => true
    | _ => false
  let fractional : Bool :=
    match rest with
    | c :: _ => c == '.' || c == 'e' || c == 'E'
    | [] => false
  if digits.isEmpty || leadingZero || fractional then none
  else
    let n : Nat := digits.foldl (fun a c => 10 * a + (c.toNat - 48)) 0
    if n > 2 ^ 53 then none
    else some (if parts.1 then -((n : Int) : ℚ) else ((n : Int) : ℚ), rest)

/-- The elements of an array after its opening bracket, when it is not empty, parsed by `pv`. -/
def parseElems (pv : Bytes → Option (JSON × Bytes)) : Nat → Bytes → Option (List JSON × Bytes)
  | 0, _ => none
  | fuel + 1, s =>
    match pv s with
    | none => none
    | some (v, r) =>
      match skipWs r with
      | ',' :: r' => (parseElems pv fuel r').map (fun p => (v :: p.1, p.2))
      | ']' :: r' => some ([v], r')
      | _ => none

/-- One JSON value at the start of `s` and what follows it. Objects are outside the part
covered. -/
def parseValue : Nat → Bytes → Option (JSON × Bytes)
  | 0, _ => none
  | fuel + 1, s =>
    match skipWs s with
    | [] => none
    | c :: r =>
      if c = '[' then
        match skipWs r with
        | ']' :: r' => some (.arr [], r')
        | _ => (parseElems (parseValue fuel) (r.length + 1) r).map (fun p => (.arr p.1, p.2))
      else if c = dquote then
        (parseStringBody r).map (fun p => (.str (String.mk p.1), p.2))
      else if "null".toList.isPrefixOf (c :: r) then some (.null, (c :: r).drop 4)
      else if "true".toList.isPrefixOf (c :: r) then some (.bool true, (c :: r).drop 4)
      else if "false".toList.isPrefixOf (c :: r) then some (.bool false, (c :: r).drop 5)
      else (parseInteger (c :: r)).map (fun p => (.num p.1, p.2))

/-- Reference instance of `json.Unmarshal(raw, &v)` for `v` of type `[]interface{}`: the
elements of the array that `raw` spells (none for `null`), `none` for the error result. -/
def jsonUnmarshal (raw : Bytes) : Option (List JSON) :=
  match parseValue (raw.length + 1) raw with
  | some (.arr xs, r) => if (skipWs r).isEmpty then some xs else none
  | some (.null, r) => if (skipWs r).isEmpty then some [] else none
  | _ => none

/-- Reference instance of `strconv.Unquote`: a double-quoted literal without escapes, line
feeds or inner quotes gives its text; anything else is outside the part covered. -/
def unquotePlain (s : Bytes) : Option String :=
  match s with
  | q :: rest =>
    if q = dquote ∧ rest.getLast? = some dquote then
      let inner := rest.dropLast
      if inner.any (fun c => c == dquote || c == backslash || c == newline) then none
      else some (String.mk inner)
    else none
  | [] => none

/-! ## Concrete sessions and inputs -/

/-- A fresh production session, as `New` builds it for a host that is not local. -/
def freshChannel : prodChannel :=
  newProdChannel (newCommon "app.example.com" "client-1" "token-1")

/-- The state in which `poll` starts on the fresh session. -/
def freshPoll : PollState :=
  { c := freshChannel, backoff := freshChannel.backoff, sent := [], slept := [], requests := [] }

/-- The packet `[[1,["c",["",["ae","hello"]]]]]`, parsed. -/
def helloPacket : List JSON :=
  [.arr [.num 1, .arr [.str "c", .arr [.str "", .arr [.str "ae", .str "hello"]]]]]

/-- The pair `[1,["c",["",["ae","hello","x"]]]]`: its innermost array has three elements. -/
def longPair : JSON :=
  .arr [.num 1, .arr [.str "c", .arr [.str "", .arr [.str "ae", .str "hello", .str "x"]]]]

/-- The pair `[0,"x"]`: message ID 0, a body that is no array. -/
def zeroPair : JSON := .arr [.num 0, .str "x"]

/-- The packet `[[3,"x"],[7,["c",["",["ae","hello"]]]]]`: two pairs, message IDs 3 and 7. -/
def risingPacket : List JSON :=
  [.arr [.num 3, .str "x"],
   .arr [.num 7, .arr [.str "c", .arr [.str "", .arr [.str "ae", .str "hello"]]]]]

/-- An argument list of seven quoted lines, the last one the token of `freshChannel`. -/
def setupArgs : Bytes :=
  ("\n  \"https://talkgadget.google.com/talkgadget/\",\n  \"\",\n  \"clid-42\",\n" ++
   "  \"gsid-7\",\n  \"1\",\n  \"WCX\",\n  \"token-1\"\n").toList

/-- A setup response that calls `chat.WcsDataClient` with the arguments `setupArgs`. -/
def setupBody : Bytes :=
  "<script>new chat.WcsDataClient(".toList ++ setupArgs ++ ");</script>".toList

/-- An argument list of five quoted lines. -/
def shortSetupArgs : Bytes := "\n\"a\",\n\"b\",\n\"c\",\n\"d\",\n\"e\"\n".toList

/-- A setup response that calls `chat.WcsDataClient` with the arguments `shortSetupArgs`. -/
def shortSetupBody : Bytes := "chat.WcsDataClient(".toList ++ shortSetupArgs ++ [')']

/-- The bind response body of the specification, `11\n[[1,['c','abc123']]]`. -/
def bindBody : Bytes := "11\n[[1,['c','abc123']]]".toList

/-- A bind response body with an element more at two levels: `[[1,['c','abc123','x']],7]`. -/
def looseBindBody : Bytes := "[[1,['c','abc123','x']],7]".toList

/-- A round that answers 401. -/
def unauthorizedRound : Round :=
  { stopped := false, zx := "abcdefghijkl", result := .response 401 "Unauthorized".toList }

/-- A round that answers 503. -/
def unavailableRound : Round :=
  { stopped := false, zx := "abcdefghijkl", result := .response 503 [] }

/-- A round that answers 200 with an empty body. -/
def emptyRound : Round :=
  { stopped := false, zx := "abcdefghijkl", result := .response 200 [] }

/-! # Theorems -/

/-! ## The comma repair -/

theorem pass_nil : bytesReplace [] doubleComma emptyField = [] := rfl

theorem pass_single (c : Char) : bytesReplace [c] doubleComma emptyField = [c] := by
  simp [bytesReplace, bytesReplaceFrom, doubleComma, List.isPrefixOf]

theorem pass_cons_ne (c : Char) (l : Bytes) (h : c ≠ ',') :
    bytesReplace (c :: l) doubleComma emptyField = c :: bytesReplace l doubleComma emptyField := by
  have h' : ¬ (',' = c) := fun e => h e.symm
  simp [bytesReplace, bytesReplaceFrom, doubleComma, List.isPrefixOf, h']

theorem pass_comma_ne (c : Char) (l : Bytes) (h : c ≠ ',') :
    bytesReplace (',' :: c :: l) doubleComma emptyField
      = ',' :: c :: bytesReplace l doubleComma emptyField := by
  have h' : ¬ (',' = c) := fun e => h e.symm
  simp [bytesReplace, bytesReplaceFrom, doubleComma, List.isPrefixOf, h']

theorem pass_comma_comma (l : Bytes) :
    bytesReplace (',' :: ',' :: l) doubleComma emptyField
      = ',' :: dquote :: dquote :: ',' :: bytesReplace l doubleComma emptyField := by
  simp [bytesReplace, bytesReplaceFrom, doubleComma, emptyField, List.isPrefixOf]

theorem dquote_ne_comma : dquote ≠ ',' := by decide


theorem pass_twice_aux (n : Nat) : ∀ l : Bytes, l.length ≤ n →
    (bytesReplace (bytesReplace l doubleComma emptyField) doubleComma emptyField
        = fillCommaRuns false l) ∧
    (bytesReplace (',' :: bytesReplace l doubleComma emptyField) doubleComma emptyField
        = ',' :: fillCommaRuns true l) := by
  induction n with
  | zero =>
    intro l hl
    have : l = [] := List.length_eq_zero.mp (Nat.le_zero.mp hl)
    subst this
    exact ⟨rfl, by simp [pass_nil, pass_single, fillCommaRuns]⟩
  | succ n ih =>
    intro l hl
    match l, hl with
    | [], _ => exact ⟨rfl, by simp [pass_nil, pass_single, fillCommaRuns]⟩
    | [c], _ =>
      by_cases hc : c = ','
      · subst hc
        refine ⟨by simp [pass_single, fillCommaRuns], ?_⟩
        simp [pass_single, pass_comma_comma, pass_nil, fillCommaRuns]
      · refine ⟨by simp [pass_single, fillCommaRuns, hc], ?_⟩
        simp [pass_single, pass_comma_ne _ _ hc, pass_nil, fillCommaRuns, hc]
    | c :: d :: r, hl =>
      have hr : r.length ≤ n := by simp at hl; omega
      have hdr : (d :: r).length ≤ n := by simp at hl ⊢; omega
      by_cases hc : c = ','
      · subst hc
        by_cases hd : d = ','
        · subst hd
          have ihr := ih r hr
          refine ⟨?_, ?_⟩
          · rw [pass_comma_comma, pass_comma_ne _ _ dquote_ne_comma,
              pass_cons_ne _ _ dquote_ne_comma, ihr.2]
            simp [fillCommaRuns]
          · rw [pass_comma_comma, pass_comma_comma, pass_cons_ne _ _ dquote_ne_comma,
              pass_cons_ne _ _ dquote_ne_comma, ihr.2]
            simp [fillCommaRuns]
        · have ihr := ih r hr
          have hd' : (d == ',') = false := by simpa using hd
          refine ⟨?_, ?_⟩
          · rw [pass_comma_ne _ _ hd, pass_comma_ne _ _ hd, ihr.1]
            simp [fillCommaRuns, hd, hd']
          · rw [pass_comma_ne _ _ hd, pass_comma_comma, pass_cons_ne _ _ hd, ihr.1]
            simp [fillCommaRuns, hd, hd']
      · have ihr := ih (d :: r) hdr
        refine ⟨?_, ?_⟩
        · rw [pass_cons_ne _ _ hc, pass_cons_ne _ _ hc, ihr.1]
          simp [fillCommaRuns, hc]
        · rw [pass_cons_ne _ _ hc, pass_comma_ne _ _ hc, ihr.1]
          simp [fillCommaRuns, hc]


theorem bytesIndex_range (sep l : Bytes) : bytesIndex sep l = -1 ∨ 0 ≤ bytesIndex sep l := by
  induction l with
  | nil => unfold bytesIndex; split <;> simp
  | cons c cs ih =>
    unfold bytesIndex
    split
    · simp
    · rcases ih with h | h
      · simp [h]
      · right
        have : ¬ bytesIndex sep cs < 0 := by omega
        simp only [this, if_false]
        omega

theorem bytesIndex_nonneg_iff (sep l : Bytes) : 0 ≤ bytesIndex sep l ↔ sep <:+: l := by
  induction l with
  | nil =>
    unfold bytesIndex
    cases sep <;> simp
  | cons c cs ih =>
    unfold bytesIndex
    rw [List.infix_cons_iff]
    by_cases hp : sep.isPrefixOf (c :: cs) = true
    · simp only [hp, if_true]
      simp [List.isPrefixOf_iff_prefix.mp hp]
    · simp only [hp]
      have hp' : ¬ sep <+: c :: cs := fun h => hp (List.isPrefixOf_iff_prefix.mpr h)
      rcases bytesIndex_range sep cs with h | h
      · have hn : ¬ (0 ≤ bytesIndex sep cs) := by omega
        simp [h, hp', ← ih, hn]
      · have : ¬ bytesIndex sep cs < 0 := by omega
        simp only [this, if_false, Bool.false_eq_true]
        constructor
        · intro _; exact Or.inr (ih.mp h)
        · intro _; omega

theorem adjacentCommas_iff (l : Bytes) : adjacentCommas l = true ↔ doubleComma <:+: l := by
  induction l with
  | nil => simp [adjacentCommas, doubleComma]
  | cons a t ih =>
    cases t with
    | nil =>
      simp [adjacentCommas, doubleComma, List.infix_cons_iff, List.prefix_cons_iff]
    | cons b r =>
      rw [List.infix_cons_iff, ← ih]
      simp only [adjacentCommas, doubleComma, Bool.or_eq_true, Bool.and_eq_true, beq_iff_eq]
      constructor
      · rintro (⟨rfl, rfl⟩ | h)
        · left; simp [List.prefix_cons_iff]
        · right; simpa [adjacentCommas] using h
      · rintro (h | h)
        · left
          obtain ⟨t, ht⟩ := h
          simp only [List.cons_append, List.nil_append, List.cons.injEq] at ht
          exact ⟨ht.1.symm, ht.2.1.symm⟩
        · right; simpa [adjacentCommas] using h


theorem fill_no_adjacent (l : Bytes) : ∀ b : Bool,
    adjacentCommas (fillCommaRuns b l) = false ∧
    (b = true → adjacentCommas (',' :: fillCommaRuns b l) = false) := by
  induction l with
  | nil => intro b; simp [fillCommaRuns, adjacentCommas]
  | cons c cs ih =>
    intro b
    by_cases hc : c = ','
    · subst hc
      cases b
      · have h := (ih true).2 rfl
        simp only [fillCommaRuns, Bool.false_and, Bool.false_eq_true, if_false, beq_self_eq_true]
        exact ⟨h, by simp⟩
      · have h := (ih true).2 rfl
        have hq : (dquote == ',') = false := by decide
        simp only [fillCommaRuns, Bool.true_and, beq_self_eq_true, if_true]
        simp [adjacentCommas, hq, h]
    · have hc' : (c == ',') = false := by simpa using hc
      have h := (ih false).1
      simp only [fillCommaRuns, hc', Bool.and_false, Bool.false_eq_true, if_false]
      cases hf : fillCommaRuns false cs with
      | nil => simp [adjacentCommas, hc']
      | cons x xs =>
        rw [hf] at h
        simp [adjacentCommas, hc', h]

theorem pass_fixed (n : Nat) : ∀ l : Bytes, l.length ≤ n → adjacentCommas l = false →
    bytesReplace l doubleComma emptyField = l := by
  induction n with
  | zero =>
    intro l hl _
    have : l = [] := List.length_eq_zero.mp (Nat.le_zero.mp hl)
    subst this; rfl
  | succ n ih =>
    intro l hl h
    match l, hl, h with
    | [], _, _ => rfl
    | [c], _, _ => exact pass_single c
    | c :: d :: r, hl, h =>
      simp only [adjacentCommas, Bool.or_eq_false_iff, Bool.and_eq_false_iff] at h
      have hdr : (d :: r).length ≤ n := by simp at hl ⊢; omega
      have hr : r.length ≤ n := by simp at hl; omega
      by_cases hc : c = ','
      · subst hc
        have hd : d ≠ ',' := by
          rcases h.1 with h1 | h1
          · simp at h1
          · simpa using h1
        have h2 : adjacentCommas r = false := by
          cases r with
          | nil => rfl
          | cons e r' =>
            have := h.2
            simp only [adjacentCommas, Bool.or_eq_false_iff] at this
            exact this.2
        rw [pass_comma_ne _ _ hd, ih r hr h2]
      · rw [pass_cons_ne _ _ hc, ih (d :: r) hdr h.2]

theorem repairCommas_eq (raw : Bytes) (fuel : Nat) (hf : 3 ≤ fuel) :
    repairCommas fuel raw = some (fillCommaRuns false raw) := by
  obtain ⟨k, rfl⟩ : ∃ k, fuel = k + 3 := ⟨fuel - 3, by omega⟩
  have hfill := (pass_twice_aux raw.length raw le_rfl).1
  have hidx : ∀ l : Bytes, (bytesIndex doubleComma l ≥ 0) ↔ adjacentCommas l = true := fun l => by
    rw [adjacentCommas_iff, ge_iff_le, bytesIndex_nonneg_iff]
  have hnone : adjacentCommas (fillCommaRuns false raw) = false := (fill_no_adjacent raw false).1
  unfold repairCommas
  by_cases h0 : adjacentCommas raw = true
  · rw [if_pos ((hidx _).mpr h0)]
    unfold repairCommas
    by_cases h1 : adjacentCommas (bytesReplace raw doubleComma emptyField) = true
    · rw [if_pos ((hidx _).mpr h1)]
      unfold repairCommas
      rw [hfill, if_neg (by rw [hidx]; simp [hnone])]
    · rw [if_neg (by rw [hidx]; exact h1)]
      have h1' : adjacentCommas (bytesReplace raw doubleComma emptyField) = false := by
        simpa using h1
      rw [← hfill, pass_fixed _ _ le_rfl h1']
  · rw [if_neg (by rw [hidx]; exact h0)]
    have h0' : adjacentCommas raw = false := by simpa using h0
    rw [← hfill, pass_fixed _ _ le_rfl h0', pass_fixed _ _ le_rfl h0']


theorem repairCommas_length (raw : Bytes) :
    repairCommas (raw.length + 1) raw = some (fillCommaRuns false raw) := by
  match raw with
  | [] => rfl
  | [c] =>
    have h : ¬ (bytesIndex doubleComma [c] ≥ 0) := by
      rw [ge_iff_le, bytesIndex_nonneg_iff, ← adjacentCommas_iff]; simp [adjacentCommas]
    simp only [repairCommas, h, if_false, fillCommaRuns]
    simp
  | c :: d :: r => exact repairCommas_eq _ _ (by simp)

theorem fill_true_of_head (post : Bytes) (h : post.head? ≠ some ',') :
    fillCommaRuns true post = fillCommaRuns false post := by
  cases post with
  | nil => rfl
  | cons c cs =>
    have hc : (c == ',') = false := by simpa using h
    simp [fillCommaRuns, hc]

theorem fill_append (l : Bytes) : ∀ (pre : Bytes) (b : Bool), pre ≠ [] →
    pre.getLast? ≠ some ',' →
    fillCommaRuns b (pre ++ l) = fillCommaRuns b pre ++ fillCommaRuns false l := by
  intro pre
  induction pre with
  | nil => intro b h; exact absurd rfl h
  | cons c t ih =>
    intro b _ hlast
    cases t with
    | nil =>
      have hc : (c == ',') = false := by simpa using hlast
      simp [fillCommaRuns, hc]
    | cons d r =>
      have hlast' : (d :: r).getLast? ≠ some ',' := by
        simpa [List.getLast?_cons_cons] using hlast
      have e1 := ih true (by simp) hlast'
      have e2 := ih (c == ',') (by simp) hlast'
      simp only [List.cons_append] at e1 e2 ⊢
      rw [fillCommaRuns, fillCommaRuns.eq_2 b c (d :: r)]
      split
      · rw [e1]; simp
      · rw [e2]; simp

theorem fill_true_commas (post : Bytes) (n : Nat) :
    fillCommaRuns true (List.replicate n ',' ++ post)
      = (List.replicate n [dquote, dquote, ',']).flatten ++ fillCommaRuns true post := by
  induction n with
  | zero => simp
  | succ n ih =>
    simp only [List.replicate_succ, List.cons_append, fillCommaRuns, Bool.true_and,
      beq_self_eq_true, if_true, List.flatten_cons, List.append_eq, List.nil_append, ih,
      List.append_assoc]

theorem fill_run (pre post : Bytes) (n : Nat) (hn : 1 ≤ n)
    (hpre : pre.getLast? ≠ some ',') (hpost : post.head? ≠ some ',') :
    fillCommaRuns false (pre ++ List.replicate n ',' ++ post)
      = fillCommaRuns false pre ++ commaRun n ++ fillCommaRuns false post := by
  obtain ⟨k, rfl⟩ : ∃ k, n = k + 1 := ⟨n - 1, by omega⟩
  have hrun : fillCommaRuns false (List.replicate (k + 1) ',' ++ post)
      = commaRun (k + 1) ++ fillCommaRuns false post := by
    have e := fill_true_commas post k
    rw [fill_true_of_head post hpost] at e
    simp only [List.replicate_succ, List.cons_append, fillCommaRuns, Bool.false_and,
      Bool.false_eq_true, if_false, beq_self_eq_true, commaRun, Nat.add_sub_cancel,
      List.append_eq, e]
  by_cases hp : pre = []
  · subst hp
    simpa [fillCommaRuns] using hrun
  · rw [List.append_assoc, fill_append _ pre false hp hpre, hrun, List.append_assoc]


/-- C8: for every packet body the comma repair loop of the decoder reaches its exit (three loop
tests always suffice, so do the `raw.length + 1` the decoder is given); its output has no two
adjacent commas; the output is the input with an empty string literal put between every two
adjacent commas, so that a maximal run of `n ≥ 2` commas becomes `n` commas with one `""` between
each adjacent two; and `[1,,,"x"]` repairs to `[1,"","","x"]`. -/
theorem C8_comma_repair (raw : Bytes) :
    (∀ fuel, 3 ≤ fuel → repairCommas fuel raw = some (fillCommaRuns false raw)) ∧
    repairCommas (raw.length + 1) raw = some (fillCommaRuns false raw) ∧
    bytesIndex doubleComma (fillCommaRuns false raw) = -1 ∧
    ¬ (doubleComma <:+: fillCommaRuns false raw) ∧
    (∀ (pre post : Bytes) (n : Nat), 2 ≤ n → pre.getLast? ≠ some ',' → post.head? ≠ some ',' →
      raw = pre ++ List.replicate n ',' ++ post →
      fillCommaRuns false raw
        = fillCommaRuns false pre ++ commaRun n ++ fillCommaRuns false post) ∧
    repairCommas 3 "[1,,,\"x\"]".toList = some "[1,\"\",\"\",\"x\"]".toList := by
  have hno : ¬ (doubleComma <:+: fillCommaRuns false raw) := by
    rw [← adjacentCommas_iff]
    simp [(fill_no_adjacent raw false).1]
  refine ⟨fun fuel hf => repairCommas_eq raw fuel hf, repairCommas_length raw, ?_, hno, ?_, by decide⟩
  · rcases bytesIndex_range doubleComma (fillCommaRuns false raw) with h | h
    · exact h
    · exact absurd ((bytesIndex_nonneg_iff _ _).mp h) hno
  · intro pre post n hn hpre hpost hraw
    subst hraw
    exact fill_run pre post n (by omega) hpre hpost

/-- C9: the two repairs differ on a run of three commas. On the bind response body
`[[0,,,['c','abc123']]]` the single `bytes.Replace` of `fetchSID` leaves a double comma, the
parse fails and `fetchSID` returns a decode error; the loop of the packet decoder turns the same
bytes into `[[0,"","",["c","abc123"]]]`. -/
theorem C9_repairs_differ :
    fetchRepair "[[0,,,['c','abc123']]]".toList = some "[[0,\"\",,[\"c\",\"abc123\"]]]".toList ∧
    pollRepair "[[0,,,['c','abc123']]]".toList
      = some (some "[[0,\"\",\"\",[\"c\",\"abc123\"]]]".toList) ∧
    (fetchSIDDecode jsonUnmarshal freshChannel "[[0,,,['c','abc123']]]".toList).error?
      = some (.decode "[[0,\"\",,[\"c\",\"abc123\"]]]".toList) := by
  decide

/-! ## The pair loop -/

theorem int64OfFloat_zero : int64OfFloat 0 = 0 := by decide

theorem pairMid_pair (a b : JSON) :
    pairMid (.arr [a, b]) = some (int64OfFloat ((asFloat a).getD 0)) := by
  cases a <;> simp [pairMid, asFloat, int64OfFloat_zero]

theorem pairStep_cases (s : PollState) (v : JSON) :
    (chainValue v = none → pairStep s v = .inl (afterPair s v)) ∧
    (∀ t, chainValue v = some (.str t) → pairStep s v = .inl (afterPair s v)) ∧
    (∀ p, chainValue v = some p → asString p = none →
      pairStep s v = .inr { s with c := { s.c with mid := (pairMid v).getD s.c.mid } }) := by
  have hlen : ∀ n : Nat, ¬ (n + 1 + 1 < 2) := fun n => by omega
  cases v with
  | arr xs =>
    match xs with
    | [] => simp [pairStep, asArray, chainValue, afterPair, chainPayload, pairMid]
    | [_] => simp [pairStep, asArray, chainValue, afterPair, chainPayload, pairMid]
    | _ :: _ :: _ :: _ => simp [pairStep, asArray, chainValue, afterPair, chainPayload, pairMid]
    | [a, b] =>
      cases b with
      | arr ys =>
        match ys with
        | [] => simp [pairStep, asArray, chainValue, bodyValue, afterPair, chainPayload, pairMid_pair]
        | [_] => simp [pairStep, asArray, chainValue, bodyValue, afterPair, chainPayload, pairMid_pair]
        | k :: m :: rest =>
          cases k with
          | str kind =>
            by_cases hk : kind = "c"
            · subst hk
              cases m with
              | arr zs =>
                match zs with
                | [] => simp [pairStep, asArray, asString, chainValue, bodyValue, cmsgValue, aeValue, afterPair, chainPayload, pairMid_pair, hlen]
                | [_] => simp [pairStep, asArray, asString, chainValue, bodyValue, cmsgValue, aeValue, afterPair, chainPayload, pairMid_pair, hlen]
                | z :: p :: zr =>
                  cases p with
                  | arr ws =>
                    match ws with
                    | [] => simp [pairStep, asArray, asString, chainValue, bodyValue, cmsgValue, aeValue, afterPair, chainPayload, pairMid_pair, hlen]
                    | [_] => simp [pairStep, asArray, asString, chainValue, bodyValue, cmsgValue, aeValue, afterPair, chainPayload, pairMid_pair, hlen]
                    | t :: d :: wr =>
                      cases t with
                      | str kind2 =>
                        by_cases hk2 : kind2 = "ae"
                        · subst hk2
                          cases d <;> simp [pairStep, asArray, asString, chainValue, bodyValue, cmsgValue, aeValue, afterPair, chainPayload, pairMid_pair, hlen]
                        · simp [pairStep, asArray, asString, chainValue, bodyValue, cmsgValue,
                            aeValue, afterPair, chainPayload, pairMid_pair, hlen, hk2]
                      | _ => simp [pairStep, asArray, asString, chainValue, bodyValue, cmsgValue, aeValue, afterPair, chainPayload, pairMid_pair, hlen]
                  | _ => simp [pairStep, asArray, asString, chainValue, bodyValue, cmsgValue, aeValue, afterPair, chainPayload, pairMid_pair, hlen]
              | _ => simp [pairStep, asArray, asString, chainValue, bodyValue, cmsgValue, aeValue, afterPair, chainPayload, pairMid_pair, hlen]
            · simp [pairStep, asArray, asString, chainValue, bodyValue, cmsgValue,
                aeValue, afterPair, chainPayload, pairMid_pair, hlen, hk]
          | _ => simp [pairStep, asArray, asString, chainValue, bodyValue, cmsgValue, aeValue, afterPair, chainPayload, pairMid_pair, hlen]
      | _ => simp [pairStep, asArray, chainValue, bodyValue, afterPair, chainPayload, pairMid_pair]
  | _ => simp [pairStep, asArray, chainValue, afterPair, chainPayload, pairMid]


theorem pairStep_total (s : PollState) (v : JSON) :
    pairStep s v = .inl (afterPair s v) ∨
    ((∃ p, chainValue v = some p ∧ asString p = none) ∧
      pairStep s v = .inr { s with c := { s.c with mid := (pairMid v).getD s.c.mid } }) := by
  have h := pairStep_cases s v
  cases hv : chainValue v with
  | none => exact Or.inl (h.1 hv)
  | some p =>
    cases hp : asString p with
    | none => exact Or.inr ⟨⟨p, rfl, hp⟩, h.2.2 p hv hp⟩
    | some t =>
      cases p <;> simp [asString] at hp
      subst hp
      exact Or.inl (h.2.1 _ hv)

theorem pairStep_mid (s : PollState) (v : JSON) :
    (finalState (pairStep s v)).c.mid = (pairMid v).getD s.c.mid := by
  rcases pairStep_total s v with h | ⟨_, h⟩ <;> simp [h, finalState, afterPair]

theorem pairStep_sent_of_none (s : PollState) (v : JSON) (h : chainPayload v = none) :
    (finalState (pairStep s v)).sent = s.sent := by
  rcases pairStep_total s v with h1 | ⟨_, h1⟩ <;> simp [h1, finalState, afterPair, h]

theorem lastMid_cons (m : Int) (v : JSON) (rest : List JSON) :
    lastMid m (v :: rest) = lastMid ((pairMid v).getD m) rest := by
  unfold lastMid
  cases hv : pairMid v with
  | none => simp [List.filterMap_cons, hv]
  | some x =>
    simp only [List.filterMap_cons, hv, Option.getD_some]
    cases hr : List.filterMap pairMid rest with
    | nil => simp
    | cons y ys => simp [List.getLast?_cons_cons, List.getLast?_cons]

theorem packetLoop_mid (packet : List JSON) : ∀ (s s' : PollState),
    packetLoop s packet = .inl s' → s'.c.mid = lastMid s.c.mid packet := by
  induction packet with
  | nil =>
    intro s s' h
    simp only [packetLoop, Sum.inl.injEq] at h
    subst h
    simp [lastMid]
  | cons v rest ih =>
    intro s s' h
    rw [lastMid_cons]
    have hm := pairStep_mid s v
    cases hp : pairStep s v with
    | inl s1 =>
      rw [hp] at hm
      simp only [packetLoop, hp] at h
      rw [ih s1 s' h]
      simp only [finalState, Sum.elim_inl, id] at hm
      rw [hm]
    | inr s1 => simp [packetLoop, hp] at h

theorem packetLoop_mid_mem (packet : List JSON) : ∀ (s : PollState),
    (finalState (packetLoop s packet)).c.mid = s.c.mid ∨
    ∃ v ∈ packet, pairMid v = some (finalState (packetLoop s packet)).c.mid := by
  induction packet with
  | nil => intro s; left; rfl
  | cons v rest ih =>
    intro s
    have hm := pairStep_mid s v
    cases hp : pairStep s v with
    | inl s1 =>
      rw [hp] at hm
      simp only [finalState, Sum.elim_inl, id] at hm
      have e : packetLoop s (v :: rest) = packetLoop s1 rest := by simp [packetLoop, hp]
      rw [e]
      rcases ih s1 with h | ⟨w, hw, hw'⟩
      · rw [h, hm]
        cases hv : pairMid v with
        | none => left; simp
        | some x => right; exact ⟨v, by simp, by simp [hv]⟩
      · right; exact ⟨w, by simp [hw], hw'⟩
    | inr s1 =>
      rw [hp] at hm
      simp only [finalState, Sum.elim_inr, id] at hm
      have e : packetLoop s (v :: rest) = .inr s1 := by simp [packetLoop, hp]
      rw [e]
      simp only [finalState, Sum.elim_inr, id]
      rw [hm]
      cases hv : pairMid v with
      | none => left; simp
      | some x => right; exact ⟨v, by simp, by simp [hv]⟩

theorem packetLoop_sent (packet : List JSON) : ∀ (s : PollState),
    (∀ v ∈ packet, ∀ p, chainValue v = some p → ∃ t, p = .str t) →
    ∃ s', packetLoop s packet = .inl s' ∧
      s'.sent = s.sent ++ packet.filterMap chainPayload ∧
      s'.c.backoff = s.c.backoff ∧ s'.slept = s.slept ∧ s'.requests = s.requests ∧
      s'.backoff = (if packet.filterMap chainPayload = [] then s.backoff else s.c.backoff) := by
  induction packet with
  | nil => intro s _; exact ⟨s, rfl, by simp, rfl, rfl, rfl, by simp⟩
  | cons v rest ih =>
    intro s h
    have hv : pairStep s v = .inl (afterPair s v) := by
      rcases pairStep_total s v with h1 | ⟨⟨p, hp, hs⟩, _⟩
      · exact h1
      · obtain ⟨t, rfl⟩ := h v (by simp) p hp
        simp [asString] at hs
    obtain ⟨s', h1, h2, h3, h4, h5, h6⟩ := ih (afterPair s v) (fun w hw => h w (by simp [hw]))
    refine ⟨s', by simp [packetLoop, hv, h1], ?_, ?_, ?_, ?_, ?_⟩
    · rw [h2]
      cases hc : chainPayload v <;> simp [afterPair, hc, List.filterMap_cons]
    · rw [h3]; simp [afterPair]
    · rw [h4]; simp [afterPair]
    · rw [h5]; simp [afterPair]
    · rw [h6]
      cases hc : chainPayload v <;> simp [afterPair, hc, List.filterMap_cons]


theorem lastMid_nil (m : Int) : lastMid m [] = m := by
  simp [lastMid]

theorem packetLoop_mid_reached (packet : List JSON) : ∀ (s : PollState),
    ∃ pre, pre <+: packet ∧
      (finalState (packetLoop s packet)).c.mid = lastMid s.c.mid pre ∧
      (∀ s', packetLoop s packet = .inl s' → pre = packet) := by
  induction packet with
  | nil =>
    intro s
    exact ⟨[], List.prefix_refl _, by simp [packetLoop, finalState, lastMid_nil], fun _ _ => rfl⟩
  | cons v rest ih =>
    intro s
    have hm := pairStep_mid s v
    cases hp : pairStep s v with
    | inl s1 =>
      rw [hp] at hm
      simp only [finalState, Sum.elim_inl, id] at hm
      have e : packetLoop s (v :: rest) = packetLoop s1 rest := by simp [packetLoop, hp]
      obtain ⟨pre, h1, h2, h3⟩ := ih s1
      refine ⟨v :: pre, (List.prefix_cons_inj v).mpr h1, ?_, ?_⟩
      · rw [e, h2, lastMid_cons, hm]
      · intro s' hs'
        rw [e] at hs'
        rw [h3 s' hs']
    | inr s1 =>
      rw [hp] at hm
      simp only [finalState, Sum.elim_inr, id] at hm
      have e : packetLoop s (v :: rest) = .inr s1 := by simp [packetLoop, hp]
      refine ⟨[v], by simp, ?_, ?_⟩
      · rw [e, lastMid_cons, lastMid_nil]
        simpa [finalState] using hm
      · intro s' hs'
        rw [e] at hs'
        cases hs'

/-- C1 (amended): for every packet in which no pair with the decoder's chain of tags carries a
payload that is not a string, the pair loop runs to its end and has sent, in packet order,
exactly the payload strings of the pairs whose body is an array of two or more elements, the
first "c", the second an array of two or more elements whose second element is an array of two
or more elements with first element "ae" and second element the payload; `mid` is then the
message ID of the last pair. A value without such a payload sends nothing. -/
theorem C1_packet_delivery (s : PollState) (packet : List JSON)
    (h : ∀ v ∈ packet, ∀ p, chainValue v = some p → ∃ t, p = .str t) :
    (∃ s', packetLoop s packet = .inl s' ∧
      s'.sent = s.sent ++ packet.filterMap chainPayload ∧
      s'.c.mid = lastMid s.c.mid packet) ∧
    (∀ (t : PollState) (v : JSON), chainPayload v = none →
      (finalState (pairStep t v)).sent = t.sent) := by
  obtain ⟨s', h1, h2, _⟩ := packetLoop_sent packet s h
  exact ⟨⟨s', h1, h2, packetLoop_mid packet s s' h1⟩, fun t v hv => pairStep_sent_of_none t v hv⟩

/-- C1, at the packet of the specification: `[[1,["c",["",["ae","hello"]]]]]` delivers exactly
"hello" and leaves `mid` at 1. -/
theorem C1_packet_delivery_witness :
    (∀ v ∈ helloPacket, ∀ p, chainValue v = some p → ∃ t, p = .str t) ∧
    ∃ s', packetLoop freshPoll helloPacket = .inl s' ∧ s'.sent = ["hello"] ∧ s'.c.mid = 1 := by
  have hh : ∀ v ∈ helloPacket, ∀ p, chainValue v = some p → ∃ t, p = .str t := by
    intro v hv p hp
    simp only [helloPacket, List.mem_singleton] at hv
    subst hv
    simp [chainValue, bodyValue, cmsgValue, aeValue] at hp
    exact ⟨"hello", hp.symm⟩
  obtain ⟨⟨s', h1, h2, h3⟩, _⟩ := C1_packet_delivery freshPoll helloPacket hh
  exact ⟨hh, s', h1, h2.trans (by decide), h3.trans (by decide)⟩

/-- C1 as stated fails: the pair `[1,["c",["",["ae","hello","x"]]]]` is not of the stated shape
(its innermost array is not `["ae", payload]`), yet the decoder delivers "hello" for it. -/
theorem C1_counterexample :
    chainPayloadExact longPair = none ∧
    (finalState (packetLoop freshPoll [longPair])).sent = ["hello"] := by
  decide

/-- C4 (amended): for every state and every packet, `mid` after the pair loop is the message
ID of the last pair the loop reached: whenever the loop runs to its end it is the `int64` value
of the message ID of the last two-element pair of the packet (0 for an ID that is not a number),
unchanged when the packet has no such pair, and in every run, panic included, it is that value
for the part of the packet the loop went through. Hence `mid` after the packet is at least `mid`
before it whenever every pair of the packet carries a message ID that is at least the current
`mid`. -/
theorem C4_mid_after_packet (s : PollState) (packet : List JSON) :
    (∀ s', packetLoop s packet = .inl s' → s'.c.mid = lastMid s.c.mid packet) ∧
    (∃ pre, pre <+: packet ∧
      (finalState (packetLoop s packet)).c.mid = lastMid s.c.mid pre ∧
      (∀ s', packetLoop s packet = .inl s' → pre = packet)) ∧
    ((∀ v ∈ packet, ∀ m, pairMid v = some m → s.c.mid ≤ m) →
      s.c.mid ≤ (finalState (packetLoop s packet)).c.mid) := by
  refine ⟨fun s' hs => packetLoop_mid packet s s' hs, packetLoop_mid_reached packet s, ?_⟩
  intro h
  rcases packetLoop_mid_mem packet s with e | ⟨v, hv, hm⟩
  · rw [e]
  · exact h v hv _ hm

/-- C4, at a fresh session (`mid` = 1): the packet `[[3,"x"],[7,["c",["",["ae","hello"]]]]]`
runs to its end and leaves `mid` at 7, the message ID of its last pair; the packet `[[0,"x"]]`
runs to its end and leaves `mid` at 0. -/
theorem C4_mid_after_packet_witness :
    (∃ s', packetLoop freshPoll risingPacket = .inl s' ∧ s'.c.mid = 7 ∧
      freshPoll.c.mid ≤ s'.c.mid) ∧
    (∃ s', packetLoop freshPoll [zeroPair] = .inl s' ∧ s'.c.mid = 0) := by
  obtain ⟨s1, h1, _⟩ := packetLoop_sent risingPacket freshPoll (by
    intro v hv p hp
    simp only [risingPacket, List.mem_cons, List.mem_singleton, List.not_mem_nil, or_false] at hv
    rcases hv with hv | hv <;> subst hv <;>
      simp [chainValue, bodyValue, cmsgValue, aeValue] at hp
    exact ⟨"hello", hp.symm⟩)
  obtain ⟨s0, h0, _⟩ := packetLoop_sent [zeroPair] freshPoll (by
    intro v hv p hp
    simp only [List.mem_singleton] at hv
    subst hv
    simp [zeroPair, chainValue, bodyValue] at hp)
  have e1 := (C4_mid_after_packet freshPoll risingPacket).1 s1 h1
  have e0 := (C4_mid_after_packet freshPoll [zeroPair]).1 s0 h0
  have v1 : lastMid freshPoll.c.mid risingPacket = 7 := by decide
  have v0 : lastMid freshPoll.c.mid [zeroPair] = 0 := by decide
  refine ⟨⟨s1, h1, e1.trans v1, ?_⟩, ⟨s0, h0, e0.trans v0⟩⟩
  rw [e1, v1]
  decide

/-- C4 as stated fails: on a fresh session, where `mid` is 1, the packet `[[0,"x"]]` leaves
`mid` at 0. -/
theorem C4_counterexample :
    freshPoll.c.mid = 1 ∧ (finalState (packetLoop freshPoll [zeroPair])).c.mid = 0 := by
  decide

/-- C2: the decoder panics, that is the process aborts, on the response body
`25\n[[1,["c",["",["ae",5]]]]]` (the type assertion `payload[1].(string)` fails), and, whatever
the JSON parser, on the body `1\nx` (the packet has no `[`, so `raw[-1:]` is out of range). -/
theorem C2_decode_panics :
    (decode jsonUnmarshal freshPoll "25\n[[1,[\"c\",[\"\",[\"ae\",5]]]]]".toList).panics = true ∧
    (∀ (unmarshal : Bytes → Option (List JSON)) (s : PollState),
      (decode unmarshal s "1\nx".toList).panics = true) := by
  refine ⟨by decide, fun unmarshal s => ?_⟩
  rfl


/-! ## The bind request builder -/

theorem wrapInt64_of_range (x : Int) (h1 : -(2 : Int) ^ 63 ≤ x) (h2 : x ≤ maxInt64) :
    wrapInt64 x = x := by
  unfold wrapInt64
  unfold maxInt64 at h2
  norm_num at h1 h2 ⊢
  omega

theorem find_set (v : Values) (k k' : String) (vals : List String) :
    Values.find (Values.set v k vals) k' =
      if k = k' then some vals else Values.find v k' := by
  unfold Values.find Values.set
  by_cases h : k = k'
  · simp [h]
  · have hb : (k == k') = false := by simpa using h
    simp only [List.find?_cons, hb, h, if_false]
    congr 1
    induction v with
    | nil => rfl
    | cons a t ih =>
      by_cases ha : a.1 = k
      · have e1 : (a.1 == k) = true := by simpa using ha
        have e2 : (a.1 == k') = false := by
          have : a.1 ≠ k' := fun e => h (ha ▸ e)
          simpa using this
        simp [List.filter_cons, List.find?_cons, e1, e2, ih]
      · have e1 : (a.1 == k) = false := by simpa using ha
        simp only [List.filter_cons, e1, Bool.not_false, if_true, List.find?_cons]
        cases (a.1 == k') <;> simp [ih]

theorem find_merge (extra : Values) (k : String) : ∀ v : Values,
    Values.find extra k = none → Values.find (Values.merge v extra) k = Values.find v k := by
  induction extra with
  | nil => intro v _; rfl
  | cons a t ih =>
    intro v h
    have ha : (a.1 == k) = false := by
      cases hk : (a.1 == k) with
      | false => rfl
      | true => simp [Values.find, List.find?_cons, hk] at h
    have ht : Values.find t k = none := by
      simpa [Values.find, List.find?_cons, ha] using h
    have hne : ¬ a.1 = k := by simpa using ha
    show Values.find (Values.merge (Values.set v a.1 a.2) t) k = Values.find v k
    rw [ih _ ht, find_set, if_neg hne]

theorem find_add (v : Values) (k k' x : String) (h : k ≠ k') :
    Values.find (Values.add v k x) k' = Values.find v k' := by
  unfold Values.add
  rw [find_set, if_neg h]

theorem bindURL_state (c : prodChannel) (extra : Values) (zx : String) :
    (bindURL c extra zx).2 = { c with rid := wrapInt64 (c.rid + 1) } := rfl

theorem bindURL_rid_param (c : prodChannel) (extra : Values) (zx : String)
    (h : Values.find extra "RID" = none) :
    Values.find (bindURL c extra zx).1.RawQuery "RID" = some [itoa c.rid] := by
  unfold bindURL
  simp only
  split
  · rw [find_add _ _ _ _ (by decide), find_merge _ _ _ h]
    rfl
  · rw [find_merge _ _ _ h]
    rfl

theorem bindURLs_rids (calls : List (Values × String)) : ∀ c : prodChannel,
    -(2 : Int) ^ 63 ≤ c.rid → c.rid + calls.length ≤ maxInt64 →
    (bindURLs c calls).1 = List.map (fun (i : Nat) => c.rid + (i : Int)) (List.range calls.length) ∧
    (bindURLs c calls).2.2 = { c with rid := c.rid + calls.length } := by
  induction calls with
  | nil => intro c _ _; simp [bindURLs]
  | cons call rest ih =>
    intro c hlo hhi
    have hlen : ((call :: rest).length : Int) = (rest.length : Int) + 1 := by simp
    rw [hlen] at hhi
    have hw : wrapInt64 (c.rid + 1) = c.rid + 1 :=
      wrapInt64_of_range _ (by omega) (by omega)
    have hstep : (bindURL c call.1 call.2).2 = { c with rid := c.rid + 1 } := by
      rw [bindURL_state, hw]
    obtain ⟨h1, h2⟩ := ih { c with rid := c.rid + 1 } (by simp; omega) (by simp; omega)
    constructor
    · simp only [bindURLs, hstep, h1, List.length_cons, List.range_succ_eq_map, List.map_cons,
        List.map_map]
      simp only [Nat.cast_zero, add_zero, List.cons.injEq, true_and]
      apply List.map_congr_left
      intro i _
      simp only [Function.comp, Nat.cast_succ]
      omega
    · simp only [bindURLs, hstep, h2, List.length_cons, Nat.cast_succ]
      congr 1
      omega


/-- C10 (amended): for every session whose `rid` is an `int` below the largest one, a call of
`bindURL` adds exactly one to `rid` and changes no other field; when the caller supplies no
`RID`, the URL's `RID` parameter is the decimal value of `rid` before the call; and over a
sequence of calls that stays below the largest `int`, the `rid` values read by the calls are
`rid, rid + 1, ...`: strictly increasing, none issued twice. -/
theorem C10_bindURL_rid (c : prodChannel) (extra : Values) (zx : String)
    (hlo : -(2 : Int) ^ 63 ≤ c.rid) (hhi : c.rid < maxInt64) :
    (bindURL c extra zx).2 = { c with rid := c.rid + 1 } ∧
    (Values.find extra "RID" = none →
      Values.find (bindURL c extra zx).1.RawQuery "RID" = some [itoa c.rid]) ∧
    (∀ calls : List (Values × String), c.rid + calls.length ≤ maxInt64 →
      (bindURLs c calls).1 = List.map (fun (i : Nat) => c.rid + (i : Int)) (List.range calls.length) ∧
      (bindURLs c calls).1.Pairwise (fun a b => a < b) ∧
      (bindURLs c calls).1.Nodup ∧
      (bindURLs c calls).2.2 = { c with rid := c.rid + calls.length }) := by
  refine ⟨?_, bindURL_rid_param c extra zx, ?_⟩
  · rw [bindURL_state, wrapInt64_of_range _ (by omega) (by omega)]
  · intro calls hcalls
    obtain ⟨h1, h2⟩ := bindURLs_rids calls c hlo hcalls
    have hp : (bindURLs c calls).1.Pairwise (fun a b => a < b) := by
      rw [h1, List.pairwise_map]
      exact (List.pairwise_lt_range calls.length).imp (fun h => by omega)
    exact ⟨h1, hp, hp.imp (fun h => ne_of_lt h), h2⟩

/-- C10, at a fresh session (`rid` = 0) and the extra parameters of `fetchSID`: `rid` becomes 1
and the URL carries `RID=0`. -/
theorem C10_bindURL_rid_witness :
    (-(2 : Int) ^ 63 ≤ freshChannel.rid ∧ freshChannel.rid < maxInt64) ∧
    (bindURL freshChannel [("CVER", ["1"])] "abcdefghijkl").2.rid = 1 ∧
    Values.find (bindURL freshChannel [("CVER", ["1"])] "abcdefghijkl").1.RawQuery "RID"
      = some ["0"] := by
  have h := C10_bindURL_rid freshChannel [("CVER", ["1"])] "abcdefghijkl" (by decide) (by decide)
  refine ⟨by decide, ?_, ?_⟩
  · rw [h.1]; rfl
  · rw [h.2.1 (by decide)]; rfl

/-- C10 as stated fails: in a session whose `rid` is the largest `int`, a call of `bindURL`
wraps `rid` around to the smallest `int` instead of adding one. -/
theorem C10_counterexample :
    (bindURL { freshChannel with rid := maxInt64 } [] "abcdefghijkl").2.rid
      = -9223372036854775808 ∧
    (bindURL { freshChannel with rid := maxInt64 } [] "abcdefghijkl").2.rid
      < ({ freshChannel with rid := maxInt64 } : prodChannel).rid := by
  decide


/-! ## The session bootstrapper -/

theorem gatherParams_ok (unquote : Bytes → Option String) (lines : List Bytes) :
    ∀ (i : Nat) (params : List String),
    (∀ l ∈ (lines.map (fun l => trimRightCommas (trimSpace l))).filter (fun l => !l.isEmpty),
      (unquote l).isSome = true) →
    gatherParams unquote lines i params
      = .ok (params ++ ((lines.map (fun l => trimRightCommas (trimSpace l))).filter
          (fun l => !l.isEmpty)).filterMap unquote) := by
  induction lines with
  | nil => intro i params _; simp [gatherParams]
  | cons line rest ih =>
    intro i params h
    by_cases he : (trimRightCommas (trimSpace line)).length = 0
    · have he' : trimRightCommas (trimSpace line) = [] := List.length_eq_zero.mp he
      have hrest : ∀ l ∈ (rest.map (fun l => trimRightCommas (trimSpace l))).filter
          (fun l => !l.isEmpty), (unquote l).isSome = true := by
        intro l hl
        apply h
        simp only [List.map_cons, List.filter_cons, he', List.isEmpty_nil, Bool.not_true]
        simpa using hl
      simp only [gatherParams, he, if_true]
      rw [ih _ _ hrest]
      simp [List.filter_cons, he']
    · have hne : (trimRightCommas (trimSpace line)).isEmpty = false := by
        cases hl : trimRightCommas (trimSpace line) with
        | nil => simp [hl] at he
        | cons _ _ => rfl
      have hrest : ∀ l ∈ (rest.map (fun l => trimRightCommas (trimSpace l))).filter
          (fun l => !l.isEmpty), (unquote l).isSome = true := by
        intro l hl
        apply h
        simp only [List.map_cons, List.filter_cons, hne, Bool.not_false, if_true]
        exact List.mem_cons_of_mem _ hl
      have hline : (unquote (trimRightCommas (trimSpace line))).isSome = true := by
        apply h
        simp [List.filter_cons, hne]
      obtain ⟨p, hp⟩ := Option.isSome_iff_exists.mp hline
      simp only [gatherParams, he, if_false, hp]
      rw [ih _ _ hrest]
      simp [List.filter_cons, hne, List.filterMap_cons, hp]

/-- C7: for every setup response body in which the call pattern is found and every non-empty
argument line unquotes, the validation of `initialize` succeeds exactly when there are seven
arguments and argument 6 equals the token; on success `gClientID` is argument 2, `gSessionID` is
argument 3 and nothing else changes; with any other number of arguments (five, say) it returns
the parameter-count error and leaves the session as it was. -/
theorem C7_initialize_params (unquote : Bytes → Option String) (c : prodChannel)
    (data group : Bytes) (hfound : callExtract data = some group)
    (hunq : ∀ l ∈ argLines group, (unquote l).isSome = true) :
    ((argLines group).filterMap unquote).length = (argLines group).length ∧
    ((initializeFrom unquote c data).1 = none ↔
      ((argLines group).filterMap unquote).length = 7 ∧
      ((argLines group).filterMap unquote)[6]? = some c.Token) ∧
    ((initializeFrom unquote c data).1 = none →
      (initializeFrom unquote c data).2 =
        { c with gClientID := ((argLines group).filterMap unquote).getD 2 ""
                 gSessionID := ((argLines group).filterMap unquote).getD 3 "" }) ∧
    (((argLines group).filterMap unquote).length ≠ 7 →
      initializeFrom unquote c data
        = (some (.paramCount ((argLines group).filterMap unquote).length), c)) := by
  have hg := gatherParams_ok unquote (splitLines group) 0 [] hunq
  simp only [List.nil_append] at hg
  have hlen : ((argLines group).filterMap unquote).length = (argLines group).length := by
    generalize argLines group = ls at hunq
    induction ls with
    | nil => rfl
    | cons a t ih =>
      obtain ⟨p, hp⟩ := Option.isSome_iff_exists.mp (hunq a (by simp))
      simp [List.filterMap_cons, hp, ih (fun l hl => hunq l (by simp [hl]))]
  have hargs : ((splitLines group).map (fun l => trimRightCommas (trimSpace l))).filter
      (fun l => !l.isEmpty) = argLines group := rfl
  rw [hargs] at hg
  generalize (argLines group).filterMap unquote = args at hg hlen ⊢
  refine ⟨hlen, ?_, ?_, ?_⟩
  · unfold initializeFrom
    simp only [hfound, hg]
    by_cases h7 : args.length = 7
    · obtain ⟨x, hx⟩ : ∃ x, args[6]? = some x :=
        ⟨args[6], List.getElem?_eq_getElem (by omega)⟩
      by_cases ht : x = c.Token
      · simp [h7, List.getD_eq_getElem?_getD, hx, ht]
      · simp [h7, List.getD_eq_getElem?_getD, hx, ht]
    · simp [h7]
  · unfold initializeFrom
    simp only [hfound, hg]
    by_cases h7 : args.length = 7
    · simp only [h7, ne_eq, not_true_eq_false, if_false]
      by_cases ht : args.getD 6 "" = c.Token
      · simp only [ht, not_true_eq_false, if_false]
        intro _; trivial
      · simp only [ht, not_false_eq_true, if_true]
        intro h; simp at h
    · simp [h7]
  · intro h7
    unfold initializeFrom
    simp [hfound, hg, h7]

/-- C7, at a setup response with seven quoted arguments whose last one is the token (the
validation succeeds and stores arguments 2 and 3) and at one with five quoted arguments (the
parameter-count error). -/
theorem C7_initialize_params_witness :
    (callExtract setupBody = some setupArgs ∧
      ∀ l ∈ argLines setupArgs, (unquotePlain l).isSome = true) ∧
    ((initializeFrom unquotePlain freshChannel setupBody).1 = none ∧
      (initializeFrom unquotePlain freshChannel setupBody).2
        = { freshChannel with gClientID := "clid-42", gSessionID := "gsid-7" }) ∧
    (callExtract shortSetupBody = some shortSetupArgs ∧
      ∀ l ∈ argLines shortSetupArgs, (unquotePlain l).isSome = true) ∧
    initializeFrom unquotePlain freshChannel shortSetupBody
      = (some (.paramCount 5), freshChannel) := by
  have hf : callExtract setupBody = some setupArgs := by decide
  have hu : ∀ l ∈ argLines setupArgs, (unquotePlain l).isSome = true := by decide
  have hf5 : callExtract shortSetupBody = some shortSetupArgs := by decide
  have hu5 : ∀ l ∈ argLines shortSetupArgs, (unquotePlain l).isSome = true := by decide
  have h := C7_initialize_params unquotePlain freshChannel setupBody setupArgs hf hu
  have h5 := C7_initialize_params unquotePlain freshChannel shortSetupBody shortSetupArgs hf5 hu5
  have hok := h.2.1.mpr ⟨by decide, by decide⟩
  refine ⟨⟨hf, hu⟩, ⟨hok, ?_⟩, ⟨hf5, hu5⟩, ?_⟩
  · rw [h.2.2.1 hok]
    have e2 : ((argLines setupArgs).filterMap unquotePlain).getD 2 "" = "clid-42" := by decide
    have e3 : ((argLines setupArgs).filterMap unquotePlain).getD 3 "" = "gsid-7" := by decide
    rw [e2, e3]
  · have e5 : ((argLines shortSetupArgs).filterMap unquotePlain).length = 5 := by decide
    have := h5.2.2.2 (by rw [e5]; decide)
    rw [e5] at this
    exact this


/-! ## fetchSID -/

theorem requote_eq_map (l : Bytes) :
    bytesReplace l [squote] [dquote] = l.map (fun c => if c = squote then dquote else c) := by
  unfold bytesReplace
  induction l with
  | nil => rfl
  | cons c cs ih =>
    by_cases hc : c = squote
    · subst hc
      simp [bytesReplaceFrom, List.isPrefixOf, ih]
    · have hc' : ¬ (squote = c) := fun e => hc e.symm
      simp [bytesReplaceFrom, List.isPrefixOf, ih, hc, hc']

theorem bracket_mem_pass (n : Nat) : ∀ l : Bytes, l.length ≤ n →
    ('[' ∈ bytesReplace l doubleComma emptyField ↔ '[' ∈ l) := by
  induction n with
  | zero =>
    intro l hl
    have : l = [] := List.length_eq_zero.mp (Nat.le_zero.mp hl)
    subst this
    simp [pass_nil]
  | succ n ih =>
    intro l hl
    match l, hl with
    | [], _ => simp [pass_nil]
    | [c], _ => simp [pass_single]
    | c :: d :: r, hl =>
      have hr : r.length ≤ n := by simp at hl; omega
      have hdr : (d :: r).length ≤ n := by simp at hl ⊢; omega
      have hq : ¬ ('[' = dquote) := by decide
      by_cases hc : c = ','
      · subst hc
        by_cases hd : d = ','
        · subst hd
          rw [pass_comma_comma]
          simp [ih r hr, hq]
        · rw [pass_comma_ne _ _ hd]
          simp [ih r hr]
      · rw [pass_cons_ne _ _ hc]
        simp only [List.mem_cons, ih (d :: r) hdr]

theorem bracket_mem_requote (l : Bytes) :
    '[' ∈ bytesReplace l [squote] [dquote] ↔ '[' ∈ l := by
  rw [requote_eq_map]
  induction l with
  | nil => simp
  | cons c cs ih =>
    simp only [List.map_cons, List.mem_cons, ih]
    by_cases hc : c = squote
    · subst hc
      simp only [if_true]
      have h1 : ¬ ('[' = dquote) := by decide
      have h2 : ¬ ('[' = squote) := by decide
      simp [h1, h2]
    · simp [hc]

theorem slice_at_index (b : Char) (l : Bytes) :
    (b ∈ l → sliceFrom l (bytesIndexByte b l) = some (l.dropWhile (fun c => !(c == b)))) ∧
    (b ∉ l → sliceFrom l (bytesIndexByte b l) = none) := by
  have key : (b ∉ l → bytesIndexByte b l = -1) ∧
      (b ∈ l → 0 ≤ bytesIndexByte b l ∧ bytesIndexByte b l ≤ l.length ∧
        l.drop (bytesIndexByte b l).toNat = l.dropWhile (fun c => !(c == b))) := by
    induction l with
    | nil => simp [bytesIndexByte]
    | cons c cs ih =>
      by_cases hc : c = b
      · subst hc
        simp [bytesIndexByte]
        omega
      · have hb : ¬ (b = c) := fun e => hc e.symm
        have hcb : (c == b) = false := by simpa using hc
        constructor
        · intro hm
          have hm' : b ∉ cs := fun h => hm (List.mem_cons_of_mem _ h)
          simp [bytesIndexByte, hc, ih.1 hm']
        · intro hm
          have hm' : b ∈ cs := by
            rcases List.mem_cons.mp hm with h | h
            · exact absurd h hb
            · exact h
          obtain ⟨h0, h1, h2⟩ := ih.2 hm'
          have hlt : ¬ (bytesIndexByte b cs < 0) := by omega
          simp only [bytesIndexByte, hc, if_false, hlt, List.length_cons, Nat.cast_succ,
            List.dropWhile_cons, hcb, Bool.not_false, if_true]
          refine ⟨by omega, by omega, ?_⟩
          have : (bytesIndexByte b cs + 1).toNat = (bytesIndexByte b cs).toNat + 1 := by omega
          rw [this, List.drop_succ_cons, h2]
  constructor
  · intro hm
    obtain ⟨h0, h1, h2⟩ := key.2 hm
    simp [sliceFrom, h0, h1, h2]
  · intro hm
    simp [sliceFrom, key.1 hm]

theorem fetchRepair_some_iff (body : Bytes) :
    ('[' ∈ body → ∃ raw, fetchRepair body = some raw) ∧
    ('[' ∉ body → fetchRepair body = none) := by
  have hiff : '[' ∈ bytesReplace (bytesReplace body doubleComma emptyField) [squote] [dquote]
      ↔ '[' ∈ body := by
    rw [bracket_mem_requote, bracket_mem_pass _ _ le_rfl]
  constructor
  · intro h
    exact ⟨_, (slice_at_index '[' _).1 (hiff.mpr h)⟩
  · intro h
    exact (slice_at_index '[' _).2 (fun h' => h (hiff.mp h'))

theorem extractSID_eq (msg : List JSON) :
    extractSID msg =
      match sidShape msg with
      | some (key, val) => if key ≠ "c" then .error .extract else .ok val
      | none => .error .extract := by
  match msg with
  | [] => simp [extractSID, sidShape]
  | m0 :: _ =>
    cases m0 with
    | arr first =>
      match first with
      | [] => simp [extractSID, sidShape, asArray]
      | [_] => simp [extractSID, sidShape, asArray]
      | _ :: f1 :: _ =>
        cases f1 with
        | arr list =>
          match list with
          | [] => simp [extractSID, sidShape, asArray]
          | [l0] => cases l0 <;> simp [extractSID, sidShape, asArray, asString]
          | l0 :: l1 :: _ =>
            cases l0 <;> cases l1 <;> simp [extractSID, sidShape, asArray, asString]
        | _ => simp [extractSID, sidShape, asArray]
    | _ => simp [extractSID, sidShape, asArray]


/-- C6 (amended): for every bind response body that contains `[`, the decoding in `fetchSID`
returns. When the repaired body parses to an array whose first element is an array whose element
1 is an array that starts with two strings, a key equal to "c" and a value, `sid` becomes the
value and no error is returned; when the repaired body does not parse, or parses to anything
else, or the key is not "c", an error is returned and the session is left as it was. -/
theorem C6_fetchSID_decode (unmarshal : Bytes → Option (List JSON)) (c : prodChannel)
    (body : Bytes) (hb : '[' ∈ body) :
    ∃ raw, fetchRepair body = some raw ∧
      (∀ msg key val, unmarshal raw = some msg → sidShape msg = some (key, val) → key = "c" →
        fetchSIDDecode unmarshal c body = .returned none { c with sid := val }) ∧
      (unmarshal raw = none →
        fetchSIDDecode unmarshal c body = .returned (some (.decode raw)) c) ∧
      (∀ msg, unmarshal raw = some msg →
        (sidShape msg = none ∨ ∃ key val, sidShape msg = some (key, val) ∧ key ≠ "c") →
        fetchSIDDecode unmarshal c body = .returned (some .extract) c) := by
  obtain ⟨raw, hraw⟩ := (fetchRepair_some_iff body).1 hb
  refine ⟨raw, hraw, ?_, ?_, ?_⟩
  · intro msg key val hm hs hk
    subst hk
    simp [fetchSIDDecode, hraw, hm, extractSID_eq, hs]
  · intro hm
    simp [fetchSIDDecode, hraw, hm]
  · intro msg hm hs
    rcases hs with hs | ⟨key, val, hs, hk⟩
    · simp [fetchSIDDecode, hraw, hm, extractSID_eq, hs]
    · simp [fetchSIDDecode, hraw, hm, extractSID_eq, hs, hk]

/-- C6, at the body of the specification: `11\n[[1,['c','abc123']]]` yields `sid` "abc123". -/
theorem C6_fetchSID_decode_witness :
    '[' ∈ bindBody ∧
    fetchSIDDecode jsonUnmarshal freshChannel bindBody
      = .returned none { freshChannel with sid := "abc123" } := by
  have hb : '[' ∈ bindBody := by decide
  obtain ⟨raw, hraw, h, _⟩ := C6_fetchSID_decode jsonUnmarshal freshChannel bindBody hb
  have hr : fetchRepair bindBody = some "[[1,[\"c\",\"abc123\"]]]".toList := by decide
  rw [hr] at hraw
  cases hraw
  exact ⟨hb, h [.arr [.num 1, .arr [.str "c", .str "abc123"]]] "c" "abc123" rfl rfl rfl⟩

/-- C6 as stated fails: the body `[[1,['c','abc123','x']],7]` does not parse to the shape
`[[_, [key, value]]]`, yet `fetchSID` returns no error and sets `sid` to "abc123". -/
theorem C6_counterexample :
    (fetchRepair looseBindBody).bind jsonUnmarshal
      = some [.arr [.num 1, .arr [.str "c", .str "abc123", .str "x"]], .num 7] ∧
    sidShapeExact [.arr [.num 1, .arr [.str "c", .str "abc123", .str "x"]], .num 7] = none ∧
    (fetchSIDDecode jsonUnmarshal freshChannel looseBindBody).succeeded = true ∧
    (fetchSIDDecode jsonUnmarshal freshChannel looseBindBody).state?.map (fun c => c.sid)
      = some "abc123" := by
  refine ⟨rfl, rfl, by decide, by decide⟩


/-! ## The decoder and the long-poll loop -/

theorem Delivered.refl (s : PollState) : Delivered s s :=
  ⟨rfl, rfl, rfl, rfl, rfl, [], by simp, by simp⟩

theorem Delivered.trans {s s1 s2 : PollState} (h1 : Delivered s s1) (h2 : Delivered s1 s2) :
    Delivered s s2 := by
  obtain ⟨a1, a2, a3, a4, a5, m1, a6, a7⟩ := h1
  obtain ⟨b1, b2, b3, b4, b5, m2, b6, b7⟩ := h2
  refine ⟨b1.trans a1, b2.trans a2, b3.trans a3, b4.trans a4, b5.trans a5, m1 ++ m2, ?_, ?_⟩
  · rw [b6, a6, List.append_assoc]
  · rw [b7, a7, a1]
    by_cases hm2 : m2 = []
    · subst hm2; simp
    · simp [hm2]

theorem pairStep_delivered (s : PollState) (v : JSON) :
    Delivered s (finalState (pairStep s v)) := by
  rcases pairStep_total s v with h | ⟨_, h⟩
  · rw [h]
    refine ⟨rfl, rfl, rfl, rfl, rfl, (chainPayload v).toList, rfl, ?_⟩
    cases hc : chainPayload v <;> simp [finalState, afterPair, hc]
  · rw [h]
    exact ⟨rfl, rfl, rfl, rfl, rfl, [], by simp [finalState], by simp [finalState]⟩

theorem packetLoop_delivered (packet : List JSON) : ∀ s : PollState,
    Delivered s (finalState (packetLoop s packet)) := by
  induction packet with
  | nil => intro s; exact Delivered.refl s
  | cons v rest ih =>
    intro s
    have hd := pairStep_delivered s v
    cases hp : pairStep s v with
    | inl s1 =>
      rw [hp] at hd
      have e : packetLoop s (v :: rest) = packetLoop s1 rest := by simp [packetLoop, hp]
      rw [e]
      exact Delivered.trans hd (ih s1)
    | inr s1 =>
      rw [hp] at hd
      have e : packetLoop s (v :: rest) = .inr s1 := by simp [packetLoop, hp]
      rw [e]
      exact hd

theorem readLine_length (body line rest : Bytes) (h : readLine body = some (line, rest)) :
    rest.length < body.length := by
  induction body generalizing line rest with
  | nil => simp [readLine] at h
  | cons c cs ih =>
    by_cases hc : c = newline
    · simp only [readLine, hc, if_true, Option.some.injEq, Prod.mk.injEq] at h
      rw [← h.2]; simp
    · simp only [readLine, hc, if_false] at h
      cases hr : readLine cs with
      | none => simp [hr] at h
      | some p =>
        obtain ⟨l, r⟩ := p
        simp only [hr, Option.some.injEq, Prod.mk.injEq] at h
        have := ih l r hr
        rw [← h.2]
        simp only [List.length_cons]
        omega

theorem takeBytes_length (s : Bytes) : ∀ (n : Nat) (raw rest : Bytes),
    takeBytes s n = some (raw, rest) → rest.length ≤ s.length := by
  induction s with
  | nil =>
    intro n raw rest h
    cases n with
    | zero =>
      simp only [takeBytes, Option.some.injEq, Prod.mk.injEq] at h
      rw [← h.2]
    | succ n => simp [takeBytes] at h
  | cons c cs ih =>
    intro n raw rest h
    cases n with
    | zero =>
      simp only [takeBytes, Option.some.injEq, Prod.mk.injEq] at h
      rw [← h.2]
    | succ n =>
      simp only [takeBytes] at h
      split at h
      · cases ht : takeBytes cs (n + 1 - utf8Len c) with
        | none => simp [ht] at h
        | some p =>
          obtain ⟨a, b⟩ := p
          simp only [ht, Option.map_some', Option.some.injEq, Prod.mk.injEq] at h
          have := ih _ a b ht
          rw [← h.2]
          simp only [List.length_cons]
          omega
      · simp only [Option.some.injEq, Prod.mk.injEq] at h
        rw [← h.2]
        simp

theorem copyN_length (s raw rest : Bytes) (n : Int) (h : copyN s n = some (raw, rest)) :
    rest.length ≤ s.length := by
  unfold copyN at h
  split at h
  · simp only [Option.some.injEq, Prod.mk.injEq] at h
    rw [← h.2]
  · exact takeBytes_length s _ raw rest h

theorem pollRepair_isSome (raw : Bytes) : pollRepair raw ≠ none := by
  simp [pollRepair, repairCommas_length]

theorem decodeLoop_result (unmarshal : Bytes → Option (List JSON)) (fuel : Nat) :
    ∀ (s : PollState) (body : Bytes), body.length < fuel →
    ∃ sd, Delivered s sd ∧
      ((∃ err, decodeLoop unmarshal fuel s body = .returned err sd) ∨
        decodeLoop unmarshal fuel s body = .panicked sd) := by
  induction fuel with
  | zero => intro s body h; omega
  | succ fuel ih =>
    intro s body hlen
    unfold decodeLoop
    cases hr : readLine body with
    | none => exact ⟨s, Delivered.refl s, Or.inl ⟨none, rfl⟩⟩
    | some p =>
      obtain ⟨line, rest⟩ := p
      have h1 := readLine_length body line rest hr
      simp only
      cases ha : atoi (trimSpace line) with
      | none => exact ⟨s, Delivered.refl s, Or.inl ⟨_, rfl⟩⟩
      | some size =>
        simp only
        cases hcp : copyN rest size with
        | none => exact ⟨s, Delivered.refl s, Or.inl ⟨_, rfl⟩⟩
        | some q =>
          obtain ⟨raw, rest'⟩ := q
          have h2 := copyN_length rest raw rest' size hcp
          simp only
          cases hp : pollRepair raw with
          | none => exact absurd hp (pollRepair_isSome raw)
          | some o =>
            cases o with
            | none => exact ⟨s, Delivered.refl s, Or.inr rfl⟩
            | some raw' =>
              simp only
              cases hu : unmarshal raw' with
              | none => exact ⟨s, Delivered.refl s, Or.inl ⟨_, rfl⟩⟩
              | some packet =>
                simp only
                have hd := packetLoop_delivered packet s
                cases hl : packetLoop s packet with
                | inr s' =>
                  rw [hl] at hd
                  exact ⟨s', hd, Or.inr rfl⟩
                | inl s' =>
                  rw [hl] at hd
                  simp only
                  obtain ⟨sd, hsd, hres⟩ := ih s' rest' (by omega)
                  exact ⟨sd, Delivered.trans hd hsd, hres⟩

theorem decode_result (unmarshal : Bytes → Option (List JSON)) (s : PollState) (body : Bytes) :
    ∃ sd, Delivered s sd ∧
      ((∃ err, decode unmarshal s body = .returned err sd) ∨
        decode unmarshal s body = .panicked sd) :=
  decodeLoop_result unmarshal (body.length + 1) s body (by omega)

theorem nextBackoff_eq_min (b m : Int) (hlo : -(2 : Int) ^ 62 ≤ b) (hhi : b < (2 : Int) ^ 62) :
    nextBackoff b m = min (2 * b) m := by
  unfold nextBackoff
  have hw : wrapInt64 (b * 2) = 2 * b := by
    rw [wrapInt64_of_range _ (by norm_num at hlo hhi ⊢; omega)
      (by unfold maxInt64; norm_num at hlo hhi ⊢; omega)]
    ring
  simp only [hw]
  split
  · rw [min_eq_right (by omega)]
  · rw [min_eq_left (by omega)]

theorem pollLoop_transient (unmarshal : Bytes → Option (List JSON)) (s : PollState) (r : Round)
    (rs : List Round) (status : Int) (body : Bytes) (hrun : r.stopped = false)
    (hres : r.result = .response status body) (h2 : Int.tdiv status 100 ≠ 2)
    (h400 : status ≠ 400) (h401 : status ≠ 401) :
    pollLoop unmarshal (r :: rs) s = pollLoop unmarshal rs (roundStart s r) := by
  simp [pollLoop, hrun, hres, h2, h400, h401]

theorem pollLoop_reauth (unmarshal : Bytes → Option (List JSON)) (s : PollState) (r : Round)
    (rs : List Round) (status : Int) (body : Bytes) (hrun : r.stopped = false)
    (hres : r.result = .response status body) (h : status = 400 ∨ status = 401) :
    pollLoop unmarshal (r :: rs) s = .returned (some .ErrReauth) (roundStart s r) := by
  have h4 : Int.tdiv 400 100 ≠ 2 := by decide
  have h5 : Int.tdiv 401 100 ≠ 2 := by decide
  rcases h with h | h <;> subst h <;> simp [pollLoop, hrun, hres, h4, h5]

theorem pollLoop_empty (unmarshal : Bytes → Option (List JSON)) (s : PollState) (r : Round)
    (rs : List Round) (status : Int) (hrun : r.stopped = false)
    (hres : r.result = .response status []) (h2 : Int.tdiv status 100 = 2) :
    pollLoop unmarshal (r :: rs) s
      = pollLoop unmarshal rs { roundStart s r with backoff := s.c.backoff } := by
  simp [pollLoop, hrun, hres, h2, decode, decodeLoop, readLine]
  rfl


theorem pollLoop_nil (unmarshal : Bytes → Option (List JSON)) (s : PollState) :
    pollLoop unmarshal [] s = .further s := by
  simp [pollLoop]

/-- C5: in a round that goes on past the `select` and whose response status is 400 or 401,
`poll` returns the sentinel `ErrReauth`, in the state in which the request was made: one URL
more than before was requested, and the rounds that would follow play no part. For every other
status outside 2xx it does not return: the loop goes on with the next round. -/
theorem C5_poll_status (unmarshal : Bytes → Option (List JSON)) (s : PollState) (r : Round)
    (rs : List Round) (status : Int) (body : Bytes) (hrun : r.stopped = false)
    (hres : r.result = .response status body) :
    ((status = 400 ∨ status = 401) →
      pollLoop unmarshal (r :: rs) s = .returned (some .ErrReauth) (roundStart s r)) ∧
    (roundStart s r).requests = s.requests ++ [(bindURL s.c (pollExtra s.c) r.zx).1] ∧
    (Int.tdiv status 100 ≠ 2 → status ≠ 400 → status ≠ 401 →
      pollLoop unmarshal (r :: rs) s = pollLoop unmarshal rs (roundStart s r)) :=
  ⟨pollLoop_reauth unmarshal s r rs status body hrun hres, rfl,
    pollLoop_transient unmarshal s r rs status body hrun hres⟩

/-- C5, at a fresh session whose first poll is answered 401: `poll` returns `ErrReauth` after
one request, although another round is scripted. -/
theorem C5_poll_status_witness :
    (unauthorizedRound.stopped = false ∧
      unauthorizedRound.result = .response 401 "Unauthorized".toList) ∧
    poll jsonUnmarshal freshChannel [unauthorizedRound, emptyRound]
      = .returned (some .ErrReauth) (roundStart freshPoll unauthorizedRound) ∧
    (roundStart freshPoll unauthorizedRound).requests.length = 1 := by
  have h := C5_poll_status jsonUnmarshal freshPoll unauthorizedRound [emptyRound] 401
    "Unauthorized".toList rfl rfl
  exact ⟨⟨rfl, rfl⟩, h.1 (Or.inr rfl), by rw [h.2.1]; rfl⟩

/-- C3 (amended): a round sleeps for the current `backoff` and, for delays of magnitude below
2^62 ns, doubles it up to the maximum `M` before the request. After a round that ends with a
transient status outside 2xx, or whose decoding fails before any message was delivered, the next
sleep is that `min (2 * previous) M`; after a round whose body decodes without error (an empty
body included) or that delivered at least one message, the next sleep is the base delay `B`.
Three consecutive empty 2xx bodies from the start give the sleeps `B, B, B`; three consecutive
transient statuses give `B, 2B, 4B` when `0 ≤ B` and `4B ≤ M < 2^62`. -/
theorem C3_backoff_schedule (unmarshal : Bytes → Option (List JSON)) (s : PollState)
    (hlo : -(2 : Int) ^ 62 ≤ s.backoff) (hhi : s.backoff < (2 : Int) ^ 62) :
    (∀ (r : Round) (rs : List Round) (status : Int) (body : Bytes),
      r.stopped = false → r.result = .response status body →
      (roundStart s r).slept = s.slept ++ [s.backoff] ∧
      (roundStart s r).backoff = min (2 * s.backoff) s.c.backMax ∧
      (Int.tdiv status 100 ≠ 2 → status ≠ 400 → status ≠ 401 →
        pollLoop unmarshal (r :: rs) s = pollLoop unmarshal rs (roundStart s r)) ∧
      (Int.tdiv status 100 = 2 →
        ∃ sd, Delivered (roundStart s r) sd ∧
          ((decode unmarshal (roundStart s r) body = .panicked sd ∧
              pollLoop unmarshal (r :: rs) s = .panicked sd) ∨
            (∃ e, decode unmarshal (roundStart s r) body = .returned (some e) sd ∧
              pollLoop unmarshal (r :: rs) s = pollLoop unmarshal rs sd ∧
              (sd.sent = s.sent → sd.backoff = min (2 * s.backoff) s.c.backMax) ∧
              (sd.sent ≠ s.sent → sd.backoff = s.c.backoff)) ∨
            (decode unmarshal (roundStart s r) body = .returned none sd ∧
              pollLoop unmarshal (r :: rs) s
                = pollLoop unmarshal rs { sd with backoff := s.c.backoff })))) ∧
    (∀ (c : prodChannel) (z1 z2 z3 : String) (st1 st2 st3 : Int),
      Int.tdiv st1 100 = 2 → Int.tdiv st2 100 = 2 → Int.tdiv st3 100 = 2 →
      ∃ s', poll unmarshal c
          [{ stopped := false, zx := z1, result := .response st1 [] },
           { stopped := false, zx := z2, result := .response st2 [] },
           { stopped := false, zx := z3, result := .response st3 [] }] = .further s' ∧
        s'.slept = [c.backoff, c.backoff, c.backoff] ∧ s'.backoff = c.backoff) ∧
    (∀ (c : prodChannel) (z1 z2 z3 : String) (st1 st2 st3 : Int) (b1 b2 b3 : Bytes),
      (Int.tdiv st1 100 ≠ 2 ∧ st1 ≠ 400 ∧ st1 ≠ 401) →
      (Int.tdiv st2 100 ≠ 2 ∧ st2 ≠ 400 ∧ st2 ≠ 401) →
      (Int.tdiv st3 100 ≠ 2 ∧ st3 ≠ 400 ∧ st3 ≠ 401) →
      0 ≤ c.backoff → 4 * c.backoff ≤ c.backMax → c.backMax < (2 : Int) ^ 62 →
      ∃ s', poll unmarshal c
          [{ stopped := false, zx := z1, result := .response st1 b1 },
           { stopped := false, zx := z2, result := .response st2 b2 },
           { stopped := false, zx := z3, result := .response st3 b3 }] = .further s' ∧
        s'.slept = [c.backoff, 2 * c.backoff, 4 * c.backoff] ∧
        s'.backoff = min (8 * c.backoff) c.backMax) := by
  refine ⟨?_, ?_, ?_⟩
  · intro r rs status body hrun hres
    have hnb : (roundStart s r).backoff = min (2 * s.backoff) s.c.backMax :=
      nextBackoff_eq_min s.backoff s.c.backMax hlo hhi
    refine ⟨rfl, hnb, pollLoop_transient unmarshal s r rs status body hrun hres, ?_⟩
    intro h2
    obtain ⟨sd, hd, hres'⟩ := decode_result unmarshal (roundStart s r) body
    refine ⟨sd, hd, ?_⟩
    obtain ⟨d1, _, _, _, _, more, d6, d7⟩ := hd
    have hsent : (roundStart s r).sent = s.sent := rfl
    have hB : (roundStart s r).c.backoff = s.c.backoff := rfl
    rw [hsent] at d6
    rw [hB] at d1 d7
    rcases hres' with ⟨err, he⟩ | hp
    · cases err with
      | none =>
        right; right
        refine ⟨he, ?_⟩
        simp only [pollLoop, hrun, hres, h2, he, d1]
        simp
      | some e =>
        right; left
        refine ⟨e, he, ?_, ?_, ?_⟩
        · simp only [pollLoop, hrun, hres, h2, he]
          simp
        · intro hs
          have hm : more = [] := by
            rw [hs] at d6
            simpa using d6
          rw [d7, hm, if_pos rfl, hnb]
        · intro hs
          have hm : more ≠ [] := by
            intro hm
            apply hs
            rw [d6, hm, List.append_nil]
          rw [d7, if_neg hm]
    · left
      refine ⟨hp, ?_⟩
      simp only [pollLoop, hrun, hres, h2, hp]
      simp
  · intro c z1 z2 z3 st1 st2 st3 h1 h2 h3
    refine ⟨?st, ?heq, ?hslept, ?hback⟩
    case heq =>
      unfold poll
      rw [pollLoop_empty unmarshal _ _ _ st1 rfl rfl h1,
        pollLoop_empty unmarshal _ _ _ st2 rfl rfl h2,
        pollLoop_empty unmarshal _ _ _ st3 rfl rfl h3]
      exact pollLoop_nil unmarshal _
    case hslept => rfl
    case hback => rfl
  · intro c z1 z2 z3 st1 st2 st3 b1 b2 b3 h1 h2 h3 hB hM hM'
    have e1 : nextBackoff c.backoff c.backMax = 2 * c.backoff := by
      rw [nextBackoff_eq_min _ _ (by norm_num at hM' ⊢; omega) (by norm_num at hM' ⊢; omega)]
      exact min_eq_left (by omega)
    have e2 : nextBackoff (2 * c.backoff) c.backMax = 4 * c.backoff := by
      rw [nextBackoff_eq_min _ _ (by norm_num at hM' ⊢; omega) (by norm_num at hM' ⊢; omega)]
      rw [min_eq_left (by omega)]
      ring
    have e3 : nextBackoff (4 * c.backoff) c.backMax = min (8 * c.backoff) c.backMax := by
      rw [nextBackoff_eq_min _ _ (by norm_num at hM' ⊢; omega) (by norm_num at hM' ⊢; omega)]
      congr 1
      ring
    refine ⟨?st', ?heq', ?hslept', ?hback'⟩
    case heq' =>
      unfold poll
      rw [pollLoop_transient unmarshal _ _ _ st1 b1 rfl rfl h1.1 h1.2.1 h1.2.2,
        pollLoop_transient unmarshal _ _ _ st2 b2 rfl rfl h2.1 h2.2.1 h2.2.2,
        pollLoop_transient unmarshal _ _ _ st3 b3 rfl rfl h3.1 h3.2.1 h3.2.2]
      exact pollLoop_nil unmarshal _
    case hslept' => simp [roundStart, bindURL, e1, e2]
    case hback' => simp [roundStart, bindURL, e1, e2, e3]


/-- C3, at a fresh session (`B` = 100 ms, `M` = 1 min): three consecutive 503 responses give
the sleeps 100 ms, 200 ms, 400 ms; three consecutive empty 200 responses give 100 ms each. -/
theorem C3_backoff_schedule_witness :
    (-(2 : Int) ^ 62 ≤ freshPoll.backoff ∧ freshPoll.backoff < (2 : Int) ^ 62) ∧
    (∃ s', poll jsonUnmarshal freshChannel [unavailableRound, unavailableRound, unavailableRound]
        = .further s' ∧
      s'.slept = [100 * millisecond, 200 * millisecond, 400 * millisecond]) ∧
    (∃ s', poll jsonUnmarshal freshChannel [emptyRound, emptyRound, emptyRound]
        = .further s' ∧
      s'.slept = [100 * millisecond, 100 * millisecond, 100 * millisecond]) := by
  have h := C3_backoff_schedule jsonUnmarshal freshPoll (by decide) (by decide)
  refine ⟨by decide, ?_, ?_⟩
  · obtain ⟨s', h1, h2, _⟩ := h.2.2 freshChannel "abcdefghijkl" "abcdefghijkl" "abcdefghijkl"
      503 503 503 [] [] [] (by decide) (by decide) (by decide) (by decide) (by decide)
      (by decide)
    exact ⟨s', h1, h2.trans (by decide)⟩
  · obtain ⟨s', h1, h2, _⟩ := h.2.1 freshChannel "abcdefghijkl" "abcdefghijkl" "abcdefghijkl"
      200 200 200 (by decide) (by decide) (by decide)
    exact ⟨s', h1, h2.trans (by decide)⟩

/-- C3 as stated fails: on a fresh session (`B` = 100 ms) three consecutive empty 200 responses
are preceded by sleeps of 100 ms, 100 ms and 100 ms, not `B, 2B, 4B`: a body that decodes
without error resets the delay although no message was delivered. -/
theorem C3_counterexample :
    freshChannel.backoff = 100000000 ∧
    (poll jsonUnmarshal freshChannel [emptyRound, emptyRound, emptyRound]).state?.map
        (fun s => (s.sent, s.slept))
      = some ([], [100000000, 100000000, 100000000]) := by
  decide

/-- The decoder terminates on every response body, whatever the parser: it returns, with or
without an error, or it panics; the fuel of the model never runs out. -/
theorem decode_terminates (unmarshal : Bytes → Option (List JSON)) (s : PollState)
    (body : Bytes) : decode unmarshal s body ≠ .outOfFuel := by
  obtain ⟨sd, _, ⟨err, h⟩ | h⟩ := decodeLoop_result unmarshal (body.length + 1) s body (by omega)
  · rw [decode, h]; exact fun e => Outcome.noConfusion e
  · rw [decode, h]; exact fun e => Outcome.noConfusion e

/-- The decoding of `fetchSID` panics exactly on the bodies without `[`: the slice expression
`raw[bytes.IndexByte(raw, '['):]` stands outside the function literal that recovers. -/
theorem fetchSID_panics_iff (unmarshal : Bytes → Option (List JSON)) (c : prodChannel)
    (body : Bytes) : (fetchSIDDecode unmarshal c body).panics = true ↔ '[' ∉ body := by
  constructor
  · intro h hb
    obtain ⟨raw, hraw⟩ := (fetchRepair_some_iff body).1 hb
    unfold fetchSIDDecode at h
    rw [hraw] at h
    simp only at h
    cases hu : unmarshal raw with
    | none => simp [hu, Outcome.panics] at h
    | some msg =>
      simp only [hu] at h
      cases he : extractSID msg <;> simp [he, Outcome.panics] at h
  · intro hb
    simp [fetchSIDDecode, (fetchRepair_some_iff body).2 hb, Outcome.panics]


end Gaechannel
